import Mathlib

set_option autoImplicit false

/-!
Verification of the Quetzal file-metadata operations
(`quetzal/app/api/data/file.py`) against their natural-language
specification.

The embedding is shallow: database rows become Lean structures, SQL
queries become list filters, the ORM session becomes explicit state
passing, and storage-backend calls become effect logs.  Model classes
that live in `quetzal/app/models.py` (not part of the sources under
review: only their callers are) are modelled from the spec and marked
as such in their doc comments.
-/

namespace Quetzal

/-- JSON scalar values as they occur in the `base` family payloads:
strings, numbers and `null`. -/
inductive JVal where
  | s (v : String)
  | n (v : Nat)
  | null
  deriving DecidableEq

/-- A JSONB payload: an association list of string keys to values
(Python `dict` with insertion order). -/
abbrev Json := List (String × JVal)

/-- Key lookup in a payload (Python `d[k]` / `d.get(k)`). -/
def jlookup (j : Json) (k : String) : Option JVal :=
  match j with
  | [] => none
  | (k2, v) :: rest => if k2 = k then some v else jlookup rest k

/-- Python `k in d`. -/
def jhas (j : Json) (k : String) : Bool :=
  (jlookup j k).isSome

/-- Python `d[k] = v`: replace in place if present, append otherwise. -/
def jset (j : Json) (k : String) (v : JVal) : Json :=
  match j with
  | [] => [(k, v)]
  | (k2, v2) :: rest => if k2 = k then (k2, v) :: rest else (k2, v2) :: jset rest k v

/-- Python `d.update(content)`: fold `jset` over the new entries. -/
def jupdate (j : Json) (content : Json) : Json :=
  content.foldl (fun acc kv => jset acc kv.1 kv.2) j

/-- Extract a string value with a default (Python `str` access with
fallback). -/
def jstrD (v : Option JVal) (dflt : String) : String :=
  match v with
  | some (.s x) => x
  | _ => dflt

/-- Python truthiness of a value read from the payload: `None`, a
missing key and the empty string are falsy. -/
def jtruthy (v : Option JVal) : Bool :=
  match v with
  | some (.s x) => x ≠ ""
  | some (.n x) => x ≠ 0
  | _ => false

/-- Workspace lifecycle states, from the `workspacestate` enum of the
workspace-model migration. -/
inductive WorkspaceState where
  | INITIALIZING | READY | SCANNING | UPDATING | COMMITTING
  | DELETING | INVALID | CONFLICT | DELETED
  deriving DecidableEq

/-- `WorkspaceState.name` (Python `Enum.name`). -/
def WorkspaceState.name : WorkspaceState → String
  | .INITIALIZING => "INITIALIZING"
  | .READY => "READY"
  | .SCANNING => "SCANNING"
  | .UPDATING => "UPDATING"
  | .COMMITTING => "COMMITTING"
  | .DELETING => "DELETING"
  | .INVALID => "INVALID"
  | .CONFLICT => "CONFLICT"
  | .DELETED => "DELETED"

/-- A row of the `family` table (family/metadata migration): a family
is committed (global) when `fk_workspace_id` is null, and
workspace-local when it names an owning workspace. -/
structure FamilyR where
  id : Nat
  name : String
  workspaceId : Option Nat
  deriving DecidableEq

/-- A row of the `metadata` table, with its `family` relationship
embedded (the ORM join used throughout `file.py`). -/
structure MetaR where
  id : Nat
  idFile : String
  json : Json
  family : FamilyR
  deriving DecidableEq

/-- The metadata table. -/
abbrev DB := List MetaR

/-- A workspace row with its `families` relationship:
`fk_last_metadata_id` is the creation snapshot marker (null when the
workspace pre-dates any commit), `data_url` its content-storage
location. -/
structure WorkspaceR where
  id : Nat
  state : WorkspaceState
  dataUrl : String
  lastMetadataId : Option Nat
  families : List FamilyR
  deriving DecidableEq

/-- The row with the greatest `id` among a list of metadata rows:
`ORDER BY id DESC` + take-first, as used by `DISTINCT ON` dedup and by
latest-entry resolution. -/
def maxById : List MetaR → Option MetaR
  | [] => none
  | m :: rest =>
    match maxById rest with
    | none => some m
    | some b => if m.id < b.id then some b else some m

theorem maxById_eq_none {l : List MetaR} : maxById l = none ↔ l = [] := by
  cases l with
  | nil => simp [maxById]
  | cons a rest =>
    simp only [maxById]
    cases hr : maxById rest with
    | none => simp
    | some b => by_cases hab : a.id < b.id <;> simp [hab]

theorem maxById_mem {l : List MetaR} {m : MetaR} (h : maxById l = some m) : m ∈ l := by
  induction l with
  | nil => simp [maxById] at h
  | cons a rest ih =>
    simp only [maxById] at h
    cases hr : maxById rest with
    | none =>
      rw [hr] at h
      cases h
      exact List.mem_cons_self _ _
    | some b =>
      rw [hr] at h
      dsimp only at h
      by_cases hab : a.id < b.id
      · rw [if_pos hab] at h
        cases h
        exact List.mem_cons_of_mem _ (ih hr)
      · rw [if_neg hab] at h
        cases h
        exact List.mem_cons_self _ _

theorem maxById_ge (l : List MetaR) :
    ∀ m, maxById l = some m → ∀ x ∈ l, x.id ≤ m.id := by
  induction l with
  | nil => intro m h; simp [maxById] at h
  | cons a rest ih =>
    intro m h x hx
    simp only [maxById] at h
    cases hr : maxById rest with
    | none =>
      rw [hr] at h
      cases h
      rcases List.mem_cons.mp hx with hxa | hxr
      · rw [hxa]
      · rw [maxById_eq_none.mp hr] at hxr
        simp at hxr
    | some b =>
      rw [hr] at h
      dsimp only at h
      by_cases hab : a.id < b.id
      · rw [if_pos hab] at h
        cases h
        rcases List.mem_cons.mp hx with hxa | hxr
        · rw [hxa]; exact le_of_lt hab
        · exact ih _ hr x hxr
      · rw [if_neg hab] at h
        cases h
        rcases List.mem_cons.mp hx with hxa | hxr
        · rw [hxa]
        · exact le_trans (ih _ hr x hxr) (le_of_not_lt hab)

/-- The "committed base metadata visible before workspace creation"
query of `fetch_w`: base-family rows whose family has no owning
workspace and whose identifier is at most the snapshot marker
(`False`, i.e. no rows, when the marker is null). -/
def previousMeta (db : DB) (ws : WorkspaceR) : DB :=
  db.filter (fun m =>
    m.family.name == "base" && m.family.workspaceId == none &&
    (match ws.lastMetadataId with
     | some k => decide (m.id ≤ k)
     | none => false))

/-- The "metadata added to this workspace" query of `fetch_w`:
base-family rows whose family is owned by this workspace. -/
def workspaceMeta (db : DB) (ws : WorkspaceR) : DB :=
  db.filter (fun m =>
    m.family.name == "base" && m.family.workspaceId == some ws.id)

/-- The `union` of the two `fetch_w` queries, before `DISTINCT ON`. -/
def fetchWUnion (db : DB) (ws : WorkspaceR) : DB :=
  previousMeta db ws ++ workspaceMeta db ws

/-- `DISTINCT ON (id_file) ... ORDER BY id_file, id DESC` of
`fetch_w`: for one file identity, the union row with the greatest
identifier. -/
def fetchWSelect (db : DB) (ws : WorkspaceR) (f : String) : Option MetaR :=
  maxById ((fetchWUnion db ws).filter (fun m => m.idFile == f))

/-- The spec's description of the base-family rows a workspace file
listing draws from: committed base entries at or below the snapshot
marker, together with the workspace's own local base entries.  Stated
from the spec's words, to be compared with `fetchWUnion`. -/
def specVisibleBase (ws : WorkspaceR) (m : MetaR) : Bool :=
  m.family.name == "base" &&
  ((m.family.workspaceId == none &&
      (match ws.lastMetadataId with
       | some k => decide (m.id ≤ k)
       | none => false)) ||
    m.family.workspaceId == some ws.id)

theorem mem_previousMeta {db : DB} {ws : WorkspaceR} {m : MetaR}
    (h : m ∈ previousMeta db ws) :
    m ∈ db ∧ m.family.name = "base" ∧ m.family.workspaceId = none ∧
      ∃ k, ws.lastMetadataId = some k ∧ m.id ≤ k := by
  simp only [previousMeta, List.mem_filter, Bool.and_eq_true, beq_iff_eq] at h
  obtain ⟨hm, ⟨hname, hglob⟩, hmark⟩ := h
  refine ⟨hm, hname, hglob, ?_⟩
  cases hk : ws.lastMetadataId with
  | none => rw [hk] at hmark; simp at hmark
  | some k =>
    rw [hk] at hmark
    simp only [decide_eq_true_eq] at hmark
    exact ⟨k, rfl, hmark⟩

theorem mem_workspaceMeta {db : DB} {ws : WorkspaceR} {m : MetaR}
    (h : m ∈ workspaceMeta db ws) :
    m ∈ db ∧ m.family.name = "base" ∧ m.family.workspaceId = some ws.id := by
  simp only [workspaceMeta, List.mem_filter, Bool.and_eq_true, beq_iff_eq] at h
  exact ⟨h.1, h.2.1, h.2.2⟩

theorem mem_fetchWUnion_iff (db : DB) (ws : WorkspaceR) (m : MetaR) :
    m ∈ fetchWUnion db ws ↔ m ∈ db ∧ specVisibleBase ws m = true := by
  simp only [fetchWUnion, previousMeta, workspaceMeta, specVisibleBase,
    List.mem_append, List.mem_filter]
  constructor
  · rintro (⟨hm, hp⟩ | ⟨hm, hp⟩)
    · refine ⟨hm, ?_⟩
      simp only [Bool.and_eq_true, Bool.or_eq_true] at hp ⊢
      exact ⟨hp.1.1, Or.inl ⟨hp.1.2, hp.2⟩⟩
    · refine ⟨hm, ?_⟩
      simp only [Bool.and_eq_true, Bool.or_eq_true] at hp ⊢
      exact ⟨hp.1, Or.inr hp.2⟩
  · rintro ⟨hm, hp⟩
    simp only [Bool.and_eq_true, Bool.or_eq_true] at hp
    rcases hp.2 with hglobal | hlocal
    · exact Or.inl ⟨hm, by simp only [Bool.and_eq_true]; exact ⟨⟨hp.1, hglobal.1⟩, hglobal.2⟩⟩
    · exact Or.inr ⟨hm, by simp only [Bool.and_eq_true]; exact ⟨hp.1, hlocal⟩⟩

/-- C1: the base-family rows the workspace file listing (`fetch_w`)
draws from are exactly the committed base entries with identifier at
most the snapshot marker together with the workspace's own local base
entries; a committed entry above the marker never appears; a null
marker admits no committed entry; and per file identity the kept row
is the one with the greatest identifier. -/
theorem C1_fetchW_visible_set (db : DB) (ws : WorkspaceR) :
    (∀ m, m ∈ fetchWUnion db ws ↔ m ∈ db ∧ specVisibleBase ws m = true) ∧
    (∀ m, m ∈ fetchWUnion db ws → m.family.workspaceId = none →
      ∀ k, ws.lastMetadataId = some k → m.id ≤ k) ∧
    (ws.lastMetadataId = none →
      ∀ m ∈ fetchWUnion db ws, m.family.workspaceId = some ws.id) ∧
    (∀ f m, fetchWSelect db ws f = some m →
      m ∈ fetchWUnion db ws ∧ m.idFile = f ∧
      ∀ m2 ∈ fetchWUnion db ws, m2.idFile = f → m2.id ≤ m.id) := by
  refine ⟨mem_fetchWUnion_iff db ws, ?_, ?_, ?_⟩
  · intro m hm hglob k hk
    rcases List.mem_append.mp hm with hprev | hws
    · obtain ⟨_, _, _, k2, hk2, hle⟩ := mem_previousMeta hprev
      rw [hk] at hk2
      cases hk2
      exact hle
    · obtain ⟨_, _, hlocal⟩ := mem_workspaceMeta hws
      rw [hglob] at hlocal
      cases hlocal
  · intro hnone m hm
    rcases List.mem_append.mp hm with hprev | hws
    · obtain ⟨_, _, _, k2, hk2, _⟩ := mem_previousMeta hprev
      rw [hnone] at hk2
      cases hk2
    · exact (mem_workspaceMeta hws).2.2
  · intro f m hsel
    have hmem := maxById_mem hsel
    have hf := (List.mem_filter.mp hmem).2
    refine ⟨(List.mem_filter.mp hmem).1, by simpa using hf, ?_⟩
    intro m2 hm2 hf2
    exact maxById_ge _ m hsel m2 (List.mem_filter.mpr ⟨hm2, by simpa using hf2⟩)

/-- A committed `base` family and a workspace-local shadow of it, with
one committed and one local metadata entry for the same file, used to
instantiate the theorems on concrete data. -/
def famBaseG : FamilyR := ⟨1, "base", none⟩

def famBaseW7 : FamilyR := ⟨2, "base", some 7⟩

def metaG1 : MetaR := ⟨1, "f1", [("id", JVal.s "f1")], famBaseG⟩

def metaL2 : MetaR := ⟨2, "f1", [("id", JVal.s "f1")], famBaseW7⟩

def db0 : DB := [metaG1, metaL2]

def ws7 : WorkspaceR := ⟨7, .READY, "file:///w7", some 1, [famBaseW7]⟩

/-- A file referenced by a committed family `x` that workspace 9 does
not declare: workspace 9 declares `base` and `y` instead, so the two
name sets are incomparable and `delete`'s strict-superset check lets
the deletion through. -/
def fam9X : FamilyR := ⟨5, "x", none⟩

def fam9BaseL : FamilyR := ⟨6, "base", some 9⟩

def fam9Y : FamilyR := ⟨7, "y", some 9⟩

def meta9b : MetaR :=
  ⟨1, "f9", [("id", JVal.s "f9"), ("url", JVal.null), ("state", JVal.s "READY")],
    famBaseG⟩

def meta9x : MetaR := ⟨2, "f9", [("id", JVal.s "f9")], fam9X⟩

def db9 : DB := [meta9b, meta9x]

def ws9 : WorkspaceR := ⟨9, .READY, "file:///w9", some 2, [fam9BaseL, fam9Y]⟩

/-- A workspace whose file `f4` has a committed base entry below the
snapshot marker and a newer workspace-local base entry whose URL lies
under the workspace's own storage. -/
def fam4L : FamilyR := ⟨12, "base", some 4⟩

def metaC4 : MetaR :=
  ⟨1, "f4", [("id", JVal.s "f4"), ("url", JVal.s "file:///global/f4")],
    famBaseG⟩

def metaL4 : MetaR :=
  ⟨2, "f4", [("id", JVal.s "f4"), ("path", JVal.s "a"),
    ("filename", JVal.s "f.txt"), ("url", JVal.s "file:///w4/a/f.txt"),
    ("state", JVal.s "READY")], fam4L⟩

def db4 : DB := [metaC4, metaL4]

def ws4 : WorkspaceR := ⟨4, .READY, "file:///w4", some 1, [fam4L]⟩

/-- Committed families `base`, `y`, `z` all hold metadata for file
`f8`, but workspace 8 declares only `base` and `y`: a strict-superset
situation in which `delete` must refuse. -/
def fam8Y : FamilyR := ⟨8, "y", none⟩

def fam8Z : FamilyR := ⟨9, "z", none⟩

def meta8b : MetaR := ⟨1, "f8", [("id", JVal.s "f8")], famBaseG⟩

def meta8y : MetaR := ⟨2, "f8", [("id", JVal.s "f8")], fam8Y⟩

def meta8z : MetaR := ⟨3, "f8", [("id", JVal.s "f8")], fam8Z⟩

def db8 : DB := [meta8b, meta8y, meta8z]

def ws8 : WorkspaceR :=
  ⟨8, .READY, "file:///w8", some 3, [⟨10, "base", some 8⟩, ⟨11, "y", some 8⟩]⟩


/-- Witness for C1 on concrete data: the committed entry below the
marker is drawn from, and it is superseded by the local entry with the
greater identifier. -/
theorem C1_fetchW_visible_set_witness :
    metaG1 ∈ fetchWUnion db0 ws7 ∧ metaG1.id ≤ metaL2.id := by
  constructor
  · exact ((C1_fetchW_visible_set db0 ws7).1 metaG1).mpr (by decide)
  · exact ((C1_fetchW_visible_set db0 ws7).2.2.2 "f1" metaL2 (by decide)).2.2
      metaG1 (by decide) (by decide)

/-- Modelled from the spec: `Workspace.can_change_metadata`
(`quetzal/app/models.py`, whose source is not under review) —
"`canChangeMetadata()` returns true only in `READY`". -/
def canChangeMetadata (ws : WorkspaceR) : Bool :=
  ws.state == .READY

/-- The workspace-local metadata entries of one file and family
name. -/
def localCand (db : DB) (ws : WorkspaceR) (uuid famName : String) : DB :=
  db.filter (fun m =>
    m.idFile == uuid && m.family.name == famName &&
    m.family.workspaceId == some ws.id)

/-- The committed metadata entries of one file and family name that
are visible below the workspace's snapshot marker. -/
def globCand (db : DB) (ws : WorkspaceR) (uuid famName : String) : DB :=
  db.filter (fun m =>
    m.idFile == uuid && m.family.name == famName &&
    m.family.workspaceId == none &&
    (match ws.lastMetadataId with
     | some k => decide (m.id ≤ k)
     | none => false))

/-- Modelled from the spec: `Metadata.get_latest` of
`quetzal/app/models.py` (not under review) — resolving "current
metadata" for a family returns "the latest workspace-local entry for F
if one exists, else the latest global entry for F with identifier ≤
the workspace's snapshot marker". -/
def getLatest (db : DB) (ws : WorkspaceR) (uuid famName : String) : Option MetaR :=
  match maxById (localCand db ws uuid famName) with
  | some m => some m
  | none => maxById (globCand db ws uuid famName)

/-- Modelled from the spec: `Metadata.get_latest_global` of
`quetzal/app/models.py` (not under review) filtered to one family
name — "resolves only committed entries", here the latest committed
entry of the named family for the file. -/
def getLatestGlobalFam (db : DB) (uuid famName : String) : Option MetaR :=
  maxById (db.filter (fun m =>
    m.idFile == uuid && m.family.name == famName &&
    m.family.workspaceId == none))

/-- The committed family names that have metadata for a file. -/
def committedNames (db : DB) (uuid : String) : List String :=
  ((db.filter (fun m =>
      m.idFile == uuid && m.family.workspaceId == none)).map
    (fun m => m.family.name)).dedup

/-- Modelled from the spec: `Metadata.get_latest_global` of
`quetzal/app/models.py` (not under review) — "resolves only committed
entries, across all committed family versions": one latest committed
entry per family name having metadata for the file. -/
def getLatestGlobal (db : DB) (uuid : String) : List MetaR :=
  (committedNames db uuid).filterMap (fun name => getLatestGlobalFam db uuid name)

/-- Modelled from the spec: `Workspace.has_file` of
`quetzal/app/models.py` (not under review) — a file is visible in a
workspace when some base-family entry is visible to it (the §3
visibility rule, the same pool `fetch_w` draws from). -/
def hasFile (db : DB) (ws : WorkspaceR) (uuid : String) : Bool :=
  (fetchWUnion db ws).any (fun m => m.idFile == uuid)

/-- Next autoincrement identifier of the `metadata` table. -/
def freshId (db : DB) : Nat :=
  1 + db.foldl (fun acc m => max acc m.id) 0

/-- The error taxonomy of `APIException` as raised in `file.py`,
keyed by HTTP status, with the `title`/`detail` strings that the
claims inspect. -/
inductive ApiError where
  | badRequest (title detail : String)
  | forbidden (detail : String)
  | preconditionFailed (title detail : String)
  | notFound (detail : String)
  | serverError (title detail : String)
  | notImplemented
  deriving DecidableEq

/-! ### Filename/path validation (`_verify_filename_path`)

The Python helper leans on `pathlib`/`os.path`; those library
functions are embedded below by their documented behaviour on the
slash-separated strings this endpoint handles. -/

/-- Prefix test on character lists (the kernel-computable core of
`String.startswith`). -/
def isCharPrefix : List Char → List Char → Bool
  | [], _ => true
  | _ :: _, [] => false
  | a :: as, b :: bs => a == b && isCharPrefix as bs

/-- `a.startswith(pre)`. -/
def strStartsWith (a pre : String) : Bool :=
  isCharPrefix pre.data a.data

/-- `PurePosixPath(s).anchor` is non-empty exactly when the path is
POSIX-absolute. -/
def posixAnchored (p : String) : Bool :=
  strStartsWith p "/"

/-- `PureWindowsPath(s).anchor` is non-empty exactly when the path
starts with a slash or backslash or with a drive letter and colon. -/
def windowsAnchored (p : String) : Bool :=
  strStartsWith p "/" || strStartsWith p "\\" ||
  (match p.data with
   | c1 :: c2 :: _ => c1.isAlpha && c2 == ':'
   | _ => false)

/-- Split a character list at every slash. -/
def splitSlash : List Char → List (List Char)
  | [] => [[]]
  | c :: rest =>
    if c = '/' then [] :: splitSlash rest
    else match splitSlash rest with
      | h :: t => (c :: h) :: t
      | [] => [[c]]

/-- Split a slash-separated path into raw segments. -/
def segsOf (p : String) : List String :=
  (splitSlash p.data).map String.mk

/-- Join segments with slashes. -/
def joinSlash : List String → String
  | [] => ""
  | [x] => x
  | x :: rest => x ++ "/" ++ joinSlash rest

/-- `os.path.dirname`: everything before the last separator (empty
when the name has no separator). -/
def dirname (p : String) : String :=
  let parts := segsOf p
  if parts.length ≤ 1 then "" else joinSlash parts.dropLast

/-- Normalization of an absolute path's segments (`os.path.abspath`):
drop empty and `.` segments, let `..` pop, clamped at the root. -/
def normAbsSegs (segs : List String) : List String :=
  segs.foldl (fun acc seg =>
    if seg == "" || seg == "." then acc
    else if seg == ".." then acc.dropLast
    else acc ++ [seg]) []

/-- Render an absolute path from its segments. -/
def absStr (segs : List String) : String :=
  "/" ++ joinSlash segs

/-- `os.path.commonprefix`: the longest common **character** prefix
of two strings (not a path-aware operation). -/
def commonPrefixChars : List Char → List Char → List Char
  | a :: as, b :: bs => if a = b then a :: commonPrefixChars as bs else []
  | _, _ => []

def commonPrefix (a b : String) : String :=
  String.mk (commonPrefixChars a.data b.data)

/-- `os.path.normpath` on a relative slash path: drop empty and `.`
segments, let `..` cancel a preceding real segment, keep leading
`..`s, `"."` for the empty result. -/
def normpath (p : String) : String :=
  let core := (segsOf p).foldl (fun acc seg =>
    if seg == "" || seg == "." then acc
    else if seg == ".." then
      match acc.getLast? with
      | some last => if last == ".." then acc ++ [".."] else acc.dropLast
      | none => [".."]
    else acc ++ [seg]) []
  if core.isEmpty then "." else joinSlash core

/-- `_verify_filename_path` with the process current directory
(`os.path.abspath(os.curdir)`) given as normalized absolute segments. -/
def verifyFilenamePath (cwd : List String) (filename path : String) :
    Except ApiError Unit :=
  if posixAnchored filename || windowsAnchored filename then
    .error (.badRequest "Invalid filename metadata modification"
      "Filename cannot be an absolute path")
  else if posixAnchored path || windowsAnchored path then
    .error (.badRequest "Invalid path metadata modification"
      "Path cannot be a absolute")
  else if filename.data.contains '\\' || path.data.contains '\\' then
    .error (.badRequest "Invalid filename or path modification"
      "Filename and path cannot have backslashes")
  else if dirname filename ≠ "" then
    .error (.badRequest "Invalid filename metadata modification"
      "Filename must not contain a path")
  else if path ≠ "" then
    let currentDirectory := absStr cwd
    let requestedPath := absStr (normAbsSegs (cwd ++ segsOf path))
    if commonPrefix requestedPath currentDirectory ≠ currentDirectory then
      .error (.badRequest "Invalid path metadata modification"
        "Path contains traversal operation")
    else if normpath path ≠ path then
      .error (.badRequest "Invalid path modification"
        "Path must be normalized")
    else .ok ()
  else .ok ()

/-- A relative path escapes the root directory `cwd` when the
normalized absolute form of `cwd / path` does not lie under `cwd`. -/
def escapesRoot (cwd : List String) (p : String) : Bool :=
  !(cwd.isPrefixOf (normAbsSegs (cwd ++ segsOf p)))

/-- C5: the validator does reject the listed filenames and paths and
accepts `a/b`, but its traversal guard compares the resolved path to
the current directory with the character-wise `os.path.commonprefix`,
so a path that resolves to a sibling directory whose name extends the
current directory's name — here `../rootx` next to a directory named
`root` — escapes the root yet is accepted. -/
theorem C5_verify_filename_path_traversal_bug :
    (verifyFilenamePath ["root"] "" "../rootx").isOk = true ∧
    escapesRoot ["root"] "../rootx" = true ∧
    (verifyFilenamePath ["root"] "../etc/passwd" "").isOk = false ∧
    (verifyFilenamePath ["root"] "" "a/../../b").isOk = false ∧
    (verifyFilenamePath ["root"] "" "a/b").isOk = true ∧
    (verifyFilenamePath ["root"] "x/y" "").isOk = false ∧
    (verifyFilenamePath ["root"] "" "/abs").isOk = false ∧
    (verifyFilenamePath ["root"] "C:b" "").isOk = false ∧
    (verifyFilenamePath ["root"] "a\\b" "").isOk = false ∧
    (verifyFilenamePath ["root"] "" "a/./b").isOk = false := by
  decide

/-! ### Storage backend moves (`_move_file_local`, `_move_file_gcp`) -/

/-- Split a character list at the first `"://"`, when present. -/
def splitScheme : List Char → Option (List Char × List Char)
  | ':' :: '/' :: '/' :: rest => some ([], rest)
  | c :: rest => (splitScheme rest).map (fun pr => (c :: pr.1, pr.2))
  | [] => none

/-- `urllib.parse.urlparse(url).netloc`. -/
def urlNetloc (url : String) : String :=
  match splitScheme url.data with
  | some (_, rest) => String.mk (rest.takeWhile (fun c => c != '/'))
  | none => ""

/-- `urllib.parse.urlparse(url).path`. -/
def urlPath (url : String) : String :=
  match splitScheme url.data with
  | some (_, rest) => String.mk (rest.dropWhile (fun c => c != '/'))
  | none => url

/-- Python `lstrip` of slashes. -/
def lstripSlash (s : String) : String :=
  String.mk (s.data.dropWhile (fun c => c == '/'))

/-- `pathlib` `/`-join of one more segment. -/
def joinSeg (a b : String) : String :=
  if b == "" then a else a ++ "/" ++ b

/-- The local filesystem: a map from absolute paths to content. -/
abbrev FileSys := List (String × Nat)

/-- `os.rename` as performed by `shutil.move` on one filesystem: a
successful no-op when source and destination are the same path. -/
def fsRename (fs : FileSys) (src dst : String) : FileSys :=
  if src == dst then fs
  else fs.map (fun e => if e.1 == src then (dst, e.2) else e)

/-- `_move_file_local`: compute the target under the new location,
make its parents (implicit in the map model) and `shutil.move` the
source onto it; returns the `file://` URL of the target
(`Path.resolve` is the identity on the normalized absolute paths this
model stores). -/
def moveFileLocal (fs : FileSys) (url location path filename : String) :
    String × FileSys :=
  let source := urlPath url
  let target := joinSeg (joinSeg (urlPath location) path) filename
  ("file://" ++ target, fsRename fs source target)

/-- The object store: a map from (bucket, blob name) to content. -/
abbrev BlobStore := List ((String × String) × Nat)

/-- Result of `_move_file_gcp`: the returned URL, the store, and the
`copy_blob`/`delete` calls issued. -/
structure GcpMoveResult where
  url : String
  store : BlobStore
  copyCalls : List ((String × String) × (String × String))
  deleteCalls : List (String × String)
  deriving DecidableEq

/-- `_move_file_gcp`: the source blob is named by the URL's path with
leading slashes stripped, inside the bucket of the destination
location; when the destination name differs the blob is copied and
the source deleted, otherwise nothing is touched. -/
def moveFileGcp (store : BlobStore) (url location path filename : String) :
    GcpMoveResult :=
  let bucketName := urlNetloc location
  let sourceName := lstripSlash (urlPath url)
  let newPath := joinSeg path filename
  if (bucketName, newPath) != (bucketName, sourceName) then
    let content := (store.filter (fun e => e.1 == (bucketName, sourceName))).map
      (fun e => e.2)
    let store2 := (store ++ content.map (fun c => ((bucketName, newPath), c))).filter
      (fun e => e.1 != (bucketName, sourceName))
    ⟨"gs://" ++ bucketName ++ "/" ++ newPath, store2,
      [((bucketName, sourceName), (bucketName, newPath))],
      [(bucketName, sourceName)]⟩
  else
    ⟨"gs://" ++ bucketName ++ "/" ++ newPath, store, [], []⟩

/-- C6: for both storage backends, when the source URL coincides with
the computed destination the move succeeds as a no-op — the stored
objects are untouched, no copy or delete is issued, and the returned
URL is the unchanged source URL. -/
theorem C6_move_noop_when_source_is_destination
    (fs : FileSys) (store : BlobStore) (url location path filename : String) :
    (urlPath url = joinSeg (joinSeg (urlPath location) path) filename →
      url = "file://" ++ urlPath url →
      moveFileLocal fs url location path filename = (url, fs)) ∧
    (lstripSlash (urlPath url) = joinSeg path filename →
      url = "gs://" ++ urlNetloc location ++ "/" ++ lstripSlash (urlPath url) →
      moveFileGcp store url location path filename = ⟨url, store, [], []⟩) := by
  constructor
  · intro hdst hurl
    simp only [moveFileLocal, fsRename, ← hdst, beq_self_eq_true, if_true]
    rw [← hurl]
  · intro hdst hurl
    simp only [moveFileGcp, ← hdst]
    simp only [bne_self_eq_false, Bool.false_eq_true, if_false]
    rw [← hurl]

/-- Witness for C6 at a concrete URL that equals its computed
destination under both backends. -/
theorem C6_move_noop_witness :
    moveFileLocal [("/w/a/f.txt", 5)] "file:///w/a/f.txt" "file:///w" "a" "f.txt"
      = ("file:///w/a/f.txt", [("/w/a/f.txt", 5)]) ∧
    moveFileGcp [(("b", "a/f.txt"), 5)] "gs://b/a/f.txt" "gs://b" "a" "f.txt"
      = ⟨"gs://b/a/f.txt", [(("b", "a/f.txt"), 5)], [], []⟩ := by
  constructor
  · exact (C6_move_noop_when_source_is_destination [("/w/a/f.txt", 5)] []
      "file:///w/a/f.txt" "file:///w" "a" "f.txt").1 (by decide) (by decide)
  · exact (C6_move_noop_when_source_is_destination [] [(("b", "a/f.txt"), 5)]
      "gs://b/a/f.txt" "gs://b" "a" "f.txt").2 (by decide) (by decide)

/-! ### The endpoint implementations of `file.py`

Each endpoint becomes a function from the database and its inputs to
an outcome, the database after `db.session.commit()` (unchanged when
an exception fires before the commit, since nothing is persisted
then), and the log of storage-backend calls made along the way.
Authorization predicates and backend outcomes are passed as
parameters. -/

deriving instance DecidableEq for Except

/-- Outputs of the upload helpers applied to the request content:
`split_check_path(content.filename)` and `get_readable_info(content)`
(helper module, not under review). -/
structure ContentInfo where
  filename : String
  path : String
  md5 : String
  size : Nat
  deriving DecidableEq

/-- Result of `create`: outcome (the new base payload on success), the
committed database, and the upload / backend-delete calls made. -/
structure CreateResult where
  outcome : Except ApiError Json
  db : DB
  uploadCalls : List String
  deleteCalls : List String
  deriving DecidableEq

/-- `create`: after the content, permission and workspace-state
guards, build the base payload, upload the content to the workspace
bucket (`uploadRes` is the URL the backend returns, none on failure),
set permissions (`permOk` false on failure), then store the entry and
commit. -/
def createOp (db : DB) (ws : WorkspaceR) (canWrite : Bool)
    (content : Option ContentInfo) (temporary : Bool) (pathArg : Option String)
    (uploadRes : Option String) (permOk : Bool) (newUuid nowStr : String) :
    CreateResult :=
  match content with
  | none => ⟨.error (.badRequest "Missing file content"
      "Cannot create a file without contents"), db, [], []⟩
  | some c =>
    if !canWrite then
      ⟨.error (.forbidden "You are not authorized to add files to this workspace"),
        db, [], []⟩
    else if !(canChangeMetadata ws) then
      ⟨.error (.preconditionFailed "Cannot add file to workspace"
          ("Cannot add files to a workspace on " ++ ws.state.name ++ " state")),
        db, [], []⟩
    else
      match ws.families.find? (fun f => f.name == "base") with
      | none => ⟨.error (.serverError "Incorrect workspace configuration"
          "Cannot add files to workspace because it does not have the base family"),
          db, [], []⟩
      | some baseFamily =>
        let st := if temporary then "TEMPORARY" else "READY"
        let path := pathArg.getD c.path
        let json0 : Json :=
          [("id", JVal.s newUuid), ("filename", JVal.s c.filename),
            ("path", JVal.s path), ("size", JVal.n c.size),
            ("checksum", JVal.s c.md5), ("date", JVal.s nowStr),
            ("url", JVal.s ""), ("state", JVal.s st)]
        match uploadRes with
        | none => ⟨.error (.serverError "Failed to upload file"
            "Could not upload file"), db, [], []⟩
        | some url =>
          if !permOk then
            ⟨.error (.serverError "Failed to upload file"
                "Could not update file permissions"), db, [url], []⟩
          else
            let json1 := jset json0 "url" (JVal.s url)
            ⟨.ok json1,
              db ++ [⟨freshId db, newUuid, json1, baseFamily⟩], [url], []⟩

/-- `set_metadata`: the same guard sequence as the other mutators,
then `NotImplementedError`. -/
def setMetadataOp (db : DB) (ws : WorkspaceR) (uuid : String) (canWrite : Bool) :
    Except ApiError Unit × DB :=
  if !canWrite then
    (.error (.forbidden "You are not authorized to modify metadata on this workspace"), db)
  else if !(hasFile db ws uuid) then
    (.error (.notFound ("File " ++ uuid ++ " does not exist on workspace")), db)
  else if !(canChangeMetadata ws) then
    (.error (.preconditionFailed "Cannot change metadata of file"
        ("Cannot change metadata of files to a workspace on " ++
          ws.state.name ++ " state")), db)
  else (.error .notImplemented, db)

/-- Python `related > wsNames` on sets: strict superset. -/
def isStrictSuperset (a b : List String) : Bool :=
  b.all (fun x => a.contains x) && !(a.all (fun x => b.contains x))

/-- One iteration of `delete`'s family loop: skip families unrelated
to the file, resolve the latest visible entry, copy-on-write it if it
is committed, then clear it — for `base`, delete the backing object
when it lives under the workspace's storage, and set
`state = DELETED`, `url = None`; for any other family, reset the
payload to just the file identity. -/
def clearFamilyStep (ws : WorkspaceR) (uuid : String) (related : List String)
    (st : DB × List String) (fam : FamilyR) : DB × List String :=
  if !(related.contains fam.name) then st
  else
    match getLatest st.1 ws uuid fam.name with
    | none => st
    | some latest =>
      let urlv := jlookup latest.json "url"
      let newJson :=
        if fam.name == "base" then
          jupdate latest.json [("state", JVal.s "DELETED"), ("url", JVal.null)]
        else [("id", JVal.s uuid)]
      let dels :=
        if fam.name == "base" && jtruthy urlv &&
            strStartsWith (jstrD urlv "") ws.dataUrl then
          st.2 ++ [jstrD urlv ""]
        else st.2
      let db2 :=
        if latest.family.workspaceId == none then
          st.1 ++ [{ latest with id := freshId st.1, family := fam, json := newJson }]
        else
          st.1.map (fun m => if m.id == latest.id then { latest with json := newJson } else m)
      (db2, dels)

/-- Result of `delete`: outcome, committed database, and the backend
delete calls made. -/
structure DeleteResult where
  outcome : Except ApiError Unit
  db : DB
  deleteCalls : List String
  deriving DecidableEq

/-- `delete`: guards, then the check that this workspace declares
every family with committed metadata for the file (plus `base`), then
the clearing loop over the workspace's families, then commit. -/
def deleteOp (db : DB) (ws : WorkspaceR) (uuid : String) (canWrite : Bool) :
    DeleteResult :=
  if !canWrite then
    ⟨.error (.forbidden "You are not authorized to modify metadata on this workspace"),
      db, []⟩
  else if !(hasFile db ws uuid) then
    ⟨.error (.notFound ("File " ++ uuid ++ " does not exist on workspace")), db, []⟩
  else if !(canChangeMetadata ws) then
    ⟨.error (.preconditionFailed "Cannot update metadata of file"
        ("Cannot update metadata of files to a workspace on " ++
          ws.state.name ++ " state")), db, []⟩
  else
    let related := "base" :: (getLatestGlobal db uuid).map (fun m => m.family.name)
    if isStrictSuperset related (ws.families.map (fun f => f.name)) then
      ⟨.error (.preconditionFailed "Cannot delete file"
          ("Cannot delete file in this workspace because the workspace does " ++
            "not use all the metadata families associated with this file")), db, []⟩
    else
      let st := ws.families.foldl (clearFamilyStep ws uuid related) (db, [])
      ⟨.ok (), st.1, st.2⟩

/-- A `_move_file` call: source URL, location, new path, new
filename. -/
abbrev MoveCall := String × String × String × String

/-- Destination URL returned by the storage backend move
(`_move_file`): the location joined with the new path and filename. -/
def movedUrl (location path filename : String) : String :=
  joinSeg (joinSeg location path) filename

/-- `content.get(k, default)` as a string. -/
def contentGetS (content : Json) (k dflt : String) : String :=
  jstrD (jlookup content k) dflt

/-- One iteration of `update_metadata`'s per-family loop: validate
the requested change (base keys restricted to path/filename, the
filename/path checks, no `id` change, family declared on the
workspace), resolve the latest visible entry with copy-on-write, move
the backing object when a base path/filename changes and the URL is
under the workspace's storage, then merge the requested content into
the session. -/
def updateOneItem (ws : WorkspaceR) (uuid : String) (cwd : List String)
    (db : DB) (name : String) (content : Json) :
    Except ApiError (DB × Option MoveCall) :=
  if name == "base" &&
      content.any (fun kv => kv.1 != "path" && kv.1 != "filename") then
    .error (.badRequest "Invalid metadata modification"
      "Cannot change metadata family base except for its path")
  else
    match (if name == "base" then
        verifyFilenamePath cwd (contentGetS content "filename" "")
          (contentGetS content "path" "")
      else .ok ()) with
    | .error e => .error e
    | .ok _ =>
      if jhas content "id" then
        .error (.badRequest "Invalid metadata modification"
          "Cannot change metadata id entry")
      else
        match ws.families.find? (fun f => f.name == name) with
        | none => .error (.badRequest "Invalid family"
            ("Workspace does not have family " ++ name))
        | some family =>
          let resolved : MetaR × Bool :=
            match getLatest db ws uuid name with
            | none => (⟨freshId db, uuid, [("id", JVal.s uuid)], family⟩, true)
            | some latest =>
              if latest.family.workspaceId == none then
                ({ latest with id := freshId db, family := family }, true)
              else (latest, false)
          let entry := resolved.1
          let doMove := name == "base" &&
            (jhas content "path" || jhas content "filename") &&
            strStartsWith (jstrD (jlookup entry.json "url") "") ws.dataUrl
          let newPath := contentGetS content "path"
            (jstrD (jlookup entry.json "path") "")
          let newFilename := contentGetS content "filename"
            (jstrD (jlookup entry.json "filename") "")
          let mc : Option MoveCall := if doMove then
              some (jstrD (jlookup entry.json "url") "", ws.dataUrl,
                newPath, newFilename)
            else none
          let json1 := if doMove then
              jset entry.json "url" (JVal.s (movedUrl ws.dataUrl newPath newFilename))
            else entry.json
          let entry2 := { entry with json := jupdate json1 content }
          let db2 := if resolved.2 then db ++ [entry2]
            else db.map (fun m => if m.id == entry.id then entry2 else m)
          .ok (db2, mc)

/-- The per-family loop of `update_metadata`.  Returns the session
state on success; an error aborts the request before any commit, but
moves already performed remain in the log. -/
def updateItems (ws : WorkspaceR) (uuid : String) (cwd : List String) :
    DB → List MoveCall → List (String × Json) →
    Except ApiError DB × List MoveCall
  | db, mv, [] => (.ok db, mv)
  | db, mv, (name, content) :: rest =>
    match updateOneItem ws uuid cwd db name content with
    | .error e => (.error e, mv)
    | .ok (db2, mc) => updateItems ws uuid cwd db2 (mv ++ mc.toList) rest

/-- Result of `update_metadata`: outcome, committed database, and the
backend move calls made. -/
structure UpdateResult where
  outcome : Except ApiError Unit
  db : DB
  moveCalls : List MoveCall
  deriving DecidableEq

/-- `update_metadata`: guards, then the validation-and-mutation loop
over the request body, then commit (an error leaves the database as it
was — the session is never committed). -/
def updateMetadataOp (db : DB) (ws : WorkspaceR) (uuid : String)
    (body : List (String × Json)) (canWrite : Bool) (cwd : List String) :
    UpdateResult :=
  if !canWrite then
    ⟨.error (.forbidden "You are not authorized to modify metadata on this workspace"),
      db, []⟩
  else if !(hasFile db ws uuid) then
    ⟨.error (.notFound ("File " ++ uuid ++ " does not exist on workspace")), db, []⟩
  else if !(canChangeMetadata ws) then
    ⟨.error (.preconditionFailed "Cannot update metadata of file"
        ("Cannot update metadata of files to a workspace on " ++
          ws.state.name ++ " state")), db, []⟩
  else
    match updateItems ws uuid cwd db [] body with
    | (.error e, mv) => ⟨.error e, db, mv⟩
    | (.ok db2, mv) => ⟨.ok (), db2, mv⟩

/-- `details` under `application/octet-stream`: resolve the latest
committed base entry; no entry or a falsy URL is a not-found error,
otherwise the content at the URL is served. -/
def detailsContent (db : DB) (uuid : String) (canReadPublic : Bool) :
    Except ApiError String :=
  if !canReadPublic then
    .error (.forbidden "You are not authorized to read metadata")
  else
    match getLatestGlobalFam db uuid "base" with
    | none => .error (.notFound
        ("File " ++ uuid ++ " does not exist or has not been committed yet"))
    | some baseMeta =>
      if !(jtruthy (jlookup baseMeta.json "url")) then
        .error (.notFound ("File " ++ uuid ++ " has been deleted"))
      else .ok (jstrD (jlookup baseMeta.json "url") "")

/-- `details` under `application/json`: the committed metadata,
gathered per family name; not-found when the file has no committed
metadata at all. -/
def detailsMeta (db : DB) (uuid : String) (canReadPublic : Bool) :
    Except ApiError (List (String × Json)) :=
  if !canReadPublic then
    .error (.forbidden "You are not authorized to read metadata")
  else
    let latestCommitted := getLatestGlobal db uuid
    if latestCommitted.isEmpty then
      .error (.notFound
        ("File " ++ uuid ++ " does not exist or has not been committed yet"))
    else .ok (latestCommitted.map (fun m => (m.family.name, m.json)))

/-- Promotion of one row: a workspace-owned family becomes
committed. -/
def promoteF (ws : WorkspaceR) (m : MetaR) : MetaR :=
  if m.family.workspaceId == some ws.id then
    { m with family := { m.family with workspaceId := none } }
  else m

/-- Modelled from the spec: the Commit Engine's promotion step (§4.4
step 3, implemented in the workspace module, not under review) —
"reassign ownership of the written entries from workspace-local to
global"; entries of this workspace's families become committed. -/
def commitPromote (db : DB) (ws : WorkspaceR) : DB :=
  db.map (promoteF ws)

/-- The base-family rows of one file that this workspace's view or its
commit can surface: the committed rows and the workspace's own. -/
def baseVis (db : DB) (ws : WorkspaceR) (uuid : String) : DB :=
  db.filter (fun m =>
    m.idFile == uuid && m.family.name == "base" &&
    (m.family.workspaceId == none || m.family.workspaceId == some ws.id))

/-! ### Supporting lemmas -/

/-- Rows of the metadata table have pairwise distinct identifiers
(the primary key). -/
def idInj (db : DB) : Prop :=
  ∀ m1 ∈ db, ∀ m2 ∈ db, m1.id = m2.id → m1 = m2

theorem maxById_eq_some_of {l : List MetaR} {m : MetaR} (hm : m ∈ l)
    (hmax : ∀ x ∈ l, x ≠ m → x.id < m.id) : maxById l = some m := by
  induction l with
  | nil => cases hm
  | cons a rest ih =>
    by_cases ham : a = m
    · subst ham
      simp only [maxById]
      cases hr : maxById rest with
      | none => rfl
      | some b =>
        have hb := maxById_mem hr
        dsimp only
        by_cases hbm : b = a
        · subst hbm; simp
        · have hlt := hmax b (List.mem_cons_of_mem _ hb) hbm
          rw [if_neg (by omega : ¬ a.id < b.id)]
    · have hmr : m ∈ rest := by
        rcases List.mem_cons.mp hm with h | h
        · exact absurd h.symm ham
        · exact h
      have hrec := ih hmr (fun x hx hxm => hmax x (List.mem_cons_of_mem _ hx) hxm)
      simp only [maxById, hrec]
      have := hmax a (List.mem_cons_self _ _) ham
      rw [if_pos this]

theorem le_foldl_max (l : List MetaR) :
    ∀ init : Nat, init ≤ l.foldl (fun acc x => max acc x.id) init := by
  induction l with
  | nil => intro init; exact le_refl _
  | cons a rest ih =>
    intro init
    exact le_trans (le_max_left init a.id) (ih (max init a.id))

theorem mem_le_foldl_max {l : List MetaR} {m : MetaR} (hm : m ∈ l) :
    ∀ init : Nat, m.id ≤ l.foldl (fun acc x => max acc x.id) init := by
  induction l with
  | nil => cases hm
  | cons a rest ih =>
    intro init
    rcases List.mem_cons.mp hm with h | h
    · subst h
      exact le_trans (le_max_right init m.id) (le_foldl_max rest _)
    · exact ih h _

theorem freshId_gt {db : DB} {m : MetaR} (hm : m ∈ db) : m.id < freshId db := by
  have := mem_le_foldl_max hm 0
  simp only [freshId]
  omega

theorem jlookup_jset_eq (j : Json) (k : String) (v : JVal) :
    jlookup (jset j k v) k = some v := by
  induction j with
  | nil => simp [jset, jlookup]
  | cons kv rest ih =>
    obtain ⟨k1, v1⟩ := kv
    by_cases hk : k1 = k
    · simp [jset, jlookup, hk]
    · simp [jset, jlookup, hk, ih]

theorem jlookup_jset_ne (j : Json) (k k2 : String) (v : JVal) (hne : k2 ≠ k) :
    jlookup (jset j k v) k2 = jlookup j k2 := by
  induction j with
  | nil =>
    simp only [jset, jlookup]
    rw [if_neg (fun h => hne h.symm)]
  | cons kv rest ih =>
    obtain ⟨k1, v1⟩ := kv
    by_cases hk : k1 = k
    · simp only [jset, if_pos hk, jlookup]
      have hne2 : ¬ k1 = k2 := by rw [hk]; exact fun h => hne h.symm
      rw [if_neg hne2, if_neg hne2]
    · simp only [jset, if_neg hk, jlookup]
      by_cases hk2 : k1 = k2
      · rw [if_pos hk2, if_pos hk2]
      · rw [if_neg hk2, if_neg hk2, ih]

theorem jhas_jset (j : Json) (k k2 : String) (v : JVal) (h : jhas j k2 = true) :
    jhas (jset j k v) k2 = true := by
  by_cases hk : k2 = k
  · subst hk; simp [jhas, jlookup_jset_eq]
  · simpa [jhas, jlookup_jset_ne j k k2 v hk] using h

theorem jhas_jupdate (content : Json) :
    ∀ j : Json, jhas j "id" = true → jhas (jupdate j content) "id" = true := by
  induction content with
  | nil => intro j h; simpa [jupdate] using h
  | cons kv rest ih =>
    intro j h
    have : jupdate j (kv :: rest) = jupdate (jset j kv.1 kv.2) rest := by
      simp [jupdate]
    rw [this]
    exact ih _ (jhas_jset j kv.1 "id" kv.2 h)

theorem filter_of_map (l : List MetaR) (f : MetaR → MetaR) (p : MetaR → Bool) :
    (l.map f).filter p = (l.filter (fun x => p (f x))).map f := by
  induction l with
  | nil => rfl
  | cons a rest ih =>
    by_cases ha : p (f a) = true
    · simp [List.filter_cons, ha, ih]
    · simp only [Bool.not_eq_true] at ha
      simp [List.filter_cons, ha, ih]

/-- If a map leaves the rows selected by `p` unchanged and introduces
no new row selected by `p`, the `p`-filtered view is untouched. -/
theorem filter_map_invariant {l : List MetaR} {f : MetaR → MetaR} {p : MetaR → Bool}
    (h1 : ∀ x ∈ l, p x = true → f x = x)
    (h2 : ∀ x ∈ l, p x = false → p (f x) = false) :
    (l.map f).filter p = l.filter p := by
  rw [filter_of_map]
  have : l.filter (fun x => p (f x)) = l.filter p := by
    apply List.filter_congr
    intro x hx
    by_cases hp : p x = true
    · rw [h1 x hx hp, hp]
    · simp only [Bool.not_eq_true] at hp
      rw [h2 x hx hp, hp]
  rw [this]
  rw [List.map_congr_left
    (fun x hx => h1 x (List.mem_filter.mp hx).1 (List.mem_filter.mp hx).2 : ∀ x ∈ l.filter p, f x = id x)]
  exact List.map_id _

theorem mem_localCand {db : DB} {ws : WorkspaceR} {uuid famName : String} {m : MetaR}
    (h : m ∈ localCand db ws uuid famName) :
    m ∈ db ∧ m.idFile = uuid ∧ m.family.name = famName ∧
      m.family.workspaceId = some ws.id := by
  simp only [localCand, List.mem_filter, Bool.and_eq_true, beq_iff_eq] at h
  exact ⟨h.1, h.2.1.1, h.2.1.2, h.2.2⟩

theorem mem_globCand {db : DB} {ws : WorkspaceR} {uuid famName : String} {m : MetaR}
    (h : m ∈ globCand db ws uuid famName) :
    m ∈ db ∧ m.idFile = uuid ∧ m.family.name = famName ∧
      m.family.workspaceId = none ∧
      ∃ k, ws.lastMetadataId = some k ∧ m.id ≤ k := by
  simp only [globCand, List.mem_filter, Bool.and_eq_true, beq_iff_eq] at h
  refine ⟨h.1, h.2.1.1.1, h.2.1.1.2, h.2.1.2, ?_⟩
  cases hk : ws.lastMetadataId with
  | none => rw [hk] at h; simp at h
  | some k =>
    obtain ⟨_, hmark⟩ := h.2
    rw [hk] at hmark
    simp only [decide_eq_true_eq] at hmark
    exact ⟨k, rfl, hmark⟩

/-- `getLatest` returns either the greatest workspace-local entry or,
when there is none, the greatest visible committed entry. -/
theorem getLatest_cases {db : DB} {ws : WorkspaceR} {uuid famName : String} {m : MetaR}
    (h : getLatest db ws uuid famName = some m) :
    (maxById (localCand db ws uuid famName) = some m ∧
      m.family.workspaceId = some ws.id) ∨
    (maxById (localCand db ws uuid famName) = none ∧
      maxById (globCand db ws uuid famName) = some m ∧
      m.family.workspaceId = none) := by
  simp only [getLatest] at h
  cases hl : maxById (localCand db ws uuid famName) with
  | some b =>
    rw [hl] at h
    dsimp only at h
    cases h
    exact Or.inl ⟨rfl, (mem_localCand (maxById_mem hl)).2.2.2⟩
  | none =>
    rw [hl] at h
    dsimp only at h
    exact Or.inr ⟨rfl, h, (mem_globCand (maxById_mem h)).2.2.2.1⟩

theorem getLatest_mem {db : DB} {ws : WorkspaceR} {uuid famName : String} {m : MetaR}
    (h : getLatest db ws uuid famName = some m) : m ∈ db := by
  rcases getLatest_cases h with ⟨hl, _⟩ | ⟨_, hg, _⟩
  · exact (mem_localCand (maxById_mem hl)).1
  · exact (mem_globCand (maxById_mem hg)).1

theorem getLatest_props {db : DB} {ws : WorkspaceR} {uuid famName : String} {m : MetaR}
    (h : getLatest db ws uuid famName = some m) :
    m.idFile = uuid ∧ m.family.name = famName := by
  rcases getLatest_cases h with ⟨hl, _⟩ | ⟨_, hg, _⟩
  · exact ⟨(mem_localCand (maxById_mem hl)).2.1, (mem_localCand (maxById_mem hl)).2.2.1⟩
  · exact ⟨(mem_globCand (maxById_mem hg)).2.1, (mem_globCand (maxById_mem hg)).2.2.1⟩

/-- A clearing step for a family not named `base` leaves any
base-named filtered view of the table, and the backend-delete log,
untouched. -/
theorem clearStep_stable (ws : WorkspaceR) (uuid : String) (related : List String)
    (fam : FamilyR) (st : DB × List String)
    (hname : ¬ fam.name = "base")
    (hinj : idInj st.1)
    (p : MetaR → Bool)
    (hp : ∀ x : MetaR, p x = true → x.family.name = "base")
    (hjson : ∀ (m : MetaR) (j2 : Json), p { m with json := j2 } = p m) :
    (clearFamilyStep ws uuid related st fam).1.filter p = st.1.filter p ∧
    (clearFamilyStep ws uuid related st fam).2 = st.2 := by
  have hbeqname : (fam.name == "base") = false := by
    rw [beq_eq_false_iff_ne]; exact hname
  simp only [clearFamilyStep, hbeqname, Bool.false_and, Bool.false_eq_true,
    if_false]
  split
  · exact ⟨rfl, rfl⟩
  · split
    · exact ⟨rfl, rfl⟩
    · rename_i latest hlat
      have hlatname : latest.family.name = fam.name := (getLatest_props hlat).2
      have hlatmem : latest ∈ st.1 := getLatest_mem hlat
      have hpname : ∀ y : MetaR, y.family.name = fam.name → p y = false := by
        intro y hy
        cases hpe : p y with
        | false => rfl
        | true =>
          have h2 := hp y hpe
          rw [hy] at h2
          exact absurd h2 hname
      refine ⟨?_, rfl⟩
      by_cases hglob : (latest.family.workspaceId == none) = true
      · simp only [hglob, if_true]
        rw [List.filter_append]
        simp [hpname]
      · simp only [hglob, Bool.false_eq_true, if_false]
        apply filter_map_invariant
        · intro x hx hpx
          have hxname := hp x hpx
          have hne : (x.id == latest.id) = false := by
            rw [beq_eq_false_iff_ne]
            intro hcontra
            have := hinj x hx latest hlatmem hcontra
            rw [this, hlatname] at hxname
            exact hname hxname
          simp [hne]
        · intro x hx hpx
          by_cases hxl : (x.id == latest.id) = true
          · rw [if_pos hxl, hjson]
            exact hpname latest hlatname
          · rw [if_neg hxl]
            exact hpx

theorem verifyFilenamePath_error {cwd : List String} {f p : String} {e : ApiError}
    (h : verifyFilenamePath cwd f p = .error e) : ∃ t d, e = .badRequest t d := by
  simp only [verifyFilenamePath] at h
  repeat' split at h
  all_goals cases h
  all_goals exact ⟨_, _, rfl⟩

theorem updateOneItem_error_badRequest {ws : WorkspaceR} {uuid : String}
    {cwd : List String} {db : DB} {name : String} {content : Json} {e : ApiError}
    (h : updateOneItem ws uuid cwd db name content = .error e) :
    ∃ t d, e = .badRequest t d := by
  simp only [updateOneItem] at h
  split at h
  · cases h; exact ⟨_, _, rfl⟩
  · split at h
    · rename_i e2 heq
      cases h
      split at heq
      · exact verifyFilenamePath_error heq
      · cases heq
    · split at h
      · cases h; exact ⟨_, _, rfl⟩
      · split at h
        · cases h; exact ⟨_, _, rfl⟩
        · simp at h

theorem updateOneItem_idkey {ws : WorkspaceR} {uuid : String}
    {cwd : List String} {db : DB} {name : String} {content : Json}
    (hid : jhas content "id" = true) :
    ∃ e, updateOneItem ws uuid cwd db name content = .error e := by
  simp only [updateOneItem]
  split
  · exact ⟨_, rfl⟩
  · split
    · exact ⟨_, rfl⟩
    · exact ⟨_, rfl⟩

theorem updateOneItem_base_badkey {ws : WorkspaceR} {uuid : String}
    {cwd : List String} {db : DB} {content : Json}
    (hbad : content.any (fun kv => kv.1 != "path" && kv.1 != "filename") = true) :
    updateOneItem ws uuid cwd db "base" content =
      .error (.badRequest "Invalid metadata modification"
        "Cannot change metadata family base except for its path") := by
  simp [updateOneItem, hbad]

theorem updateOneItem_ok_moveCall {ws : WorkspaceR} {uuid : String}
    {cwd : List String} {db : DB} {name : String} {content : Json}
    {db2 : DB} {call : MoveCall}
    (h : updateOneItem ws uuid cwd db name content = .ok (db2, some call)) :
    strStartsWith call.1 ws.dataUrl = true := by
  simp only [updateOneItem] at h
  split at h
  · cases h
  · split at h
    · cases h
    · split at h
      · cases h
      · split at h
        · cases h
        · simp only [Except.ok.injEq, Prod.mk.injEq] at h
          obtain ⟨hdb, hmc⟩ := h
          split at hmc
          · rename_i hmove
            cases hmc
            simp only [Bool.and_eq_true] at hmove
            exact hmove.2
          · cases hmc

theorem updateItems_moveCalls (ws : WorkspaceR) (uuid : String) (cwd : List String) :
    ∀ (body : List (String × Json)) (db : DB) (mv : List MoveCall),
      (∀ call ∈ mv, strStartsWith call.1 ws.dataUrl = true) →
      ∀ call ∈ (updateItems ws uuid cwd db mv body).2,
        strStartsWith call.1 ws.dataUrl = true := by
  intro body
  induction body with
  | nil => intro db mv hmv call hc; exact hmv call hc
  | cons item rest ih =>
    intro db mv hmv call hc
    obtain ⟨name, content⟩ := item
    simp only [updateItems] at hc
    cases hu : updateOneItem ws uuid cwd db name content with
    | error e =>
      rw [hu] at hc
      exact hmv call hc
    | ok pr =>
      obtain ⟨db2, mc⟩ := pr
      rw [hu] at hc
      refine ih db2 (mv ++ mc.toList) ?_ call hc
      intro c hcm
      rcases List.mem_append.mp hcm with hm | hm
      · exact hmv c hm
      · cases mc with
        | none => simp at hm
        | some c0 =>
          simp only [Option.toList, List.mem_singleton] at hm
          subst hm
          exact updateOneItem_ok_moveCall hu

theorem updateItems_no_ok_of_badkey (ws : WorkspaceR) (uuid : String)
    (cwd : List String) (content : Json)
    (hbad : content.any (fun kv => kv.1 != "path" && kv.1 != "filename") = true) :
    ∀ (body : List (String × Json)) (db : DB) (mv : List MoveCall),
      ("base", content) ∈ body →
      ∃ e mv2, updateItems ws uuid cwd db mv body = (.error e, mv2) ∧
        ∃ t d, e = .badRequest t d := by
  intro body
  induction body with
  | nil => intro db mv hmem; cases hmem
  | cons item rest ih =>
    intro db mv hmem
    obtain ⟨name, c2⟩ := item
    rcases List.mem_cons.mp hmem with heq | hmem2
    · cases heq
      simp only [updateItems]
      rw [updateOneItem_base_badkey hbad]
      exact ⟨_, mv, rfl, _, _, rfl⟩
    · simp only [updateItems]
      cases hu : updateOneItem ws uuid cwd db name c2 with
      | error e => exact ⟨e, mv, rfl, updateOneItem_error_badRequest hu⟩
      | ok pr =>
        obtain ⟨db2, mc⟩ := pr
        exact ih db2 (mv ++ mc.toList) hmem2

theorem updateItems_no_ok_of_idkey (ws : WorkspaceR) (uuid : String)
    (cwd : List String) (content : Json) (famN : String)
    (hid : jhas content "id" = true) :
    ∀ (body : List (String × Json)) (db : DB) (mv : List MoveCall),
      (famN, content) ∈ body →
      ∃ e mv2, updateItems ws uuid cwd db mv body = (.error e, mv2) ∧
        ∃ t d, e = .badRequest t d := by
  intro body
  induction body with
  | nil => intro db mv hmem; cases hmem
  | cons item rest ih =>
    intro db mv hmem
    obtain ⟨name, c2⟩ := item
    rcases List.mem_cons.mp hmem with heq | hmem2
    · cases heq
      obtain ⟨e, he⟩ := @updateOneItem_idkey ws uuid cwd db famN _ hid
      simp only [updateItems]
      rw [he]
      exact ⟨e, mv, rfl, updateOneItem_error_badRequest he⟩
    · simp only [updateItems]
      cases hu : updateOneItem ws uuid cwd db name c2 with
      | error e => exact ⟨e, mv, rfl, updateOneItem_error_badRequest hu⟩
      | ok pr =>
        obtain ⟨db2, mc⟩ := pr
        exact ih db2 (mv ++ mc.toList) hmem2

/-- C10: `update_metadata` rejects with a bad-request error — and
commits no metadata change — any request whose `base`-family content
carries a key other than `path` or `filename`; and for any request at
all, a storage move is triggered only for an entry whose current URL
lies under the workspace's own storage location. -/
theorem C10_update_metadata_base_keys (db : DB) (ws : WorkspaceR) (uuid : String)
    (body : List (String × Json)) (cwd : List String) (content : Json)
    (hfile : hasFile db ws uuid = true)
    (hready : canChangeMetadata ws = true)
    (hmem : ("base", content) ∈ body)
    (hbad : content.any (fun kv => kv.1 != "path" && kv.1 != "filename") = true) :
    (∃ t d, (updateMetadataOp db ws uuid body true cwd).outcome =
      .error (.badRequest t d)) ∧
    (updateMetadataOp db ws uuid body true cwd).db = db ∧
    (∀ body2 : List (String × Json),
      ∀ call ∈ (updateMetadataOp db ws uuid body2 true cwd).moveCalls,
        strStartsWith call.1 ws.dataUrl = true) := by
  have hops : ∀ body2 : List (String × Json),
      updateMetadataOp db ws uuid body2 true cwd =
        (match updateItems ws uuid cwd db [] body2 with
          | (.error e, mv) => ⟨.error e, db, mv⟩
          | (.ok db2, mv) => ⟨.ok (), db2, mv⟩) := by
    intro body2
    simp [updateMetadataOp, hfile, hready]
  obtain ⟨e, mv2, heq, t, d, hbr⟩ :=
    updateItems_no_ok_of_badkey ws uuid cwd content hbad body db [] hmem
  refine ⟨⟨t, d, ?_⟩, ?_, ?_⟩
  · rw [hops body, heq, hbr]
  · rw [hops body, heq]
  · intro body2 call hc
    rw [hops body2] at hc
    have hmc : (match updateItems ws uuid cwd db [] body2 with
          | (.error e, mv) => (⟨.error e, db, mv⟩ : UpdateResult)
          | (.ok db2, mv) => ⟨.ok (), db2, mv⟩).moveCalls =
        (updateItems ws uuid cwd db [] body2).2 := by
      rcases h2 : updateItems ws uuid cwd db [] body2 with ⟨res, mv⟩
      cases res <;> rfl
    rw [hmc] at hc
    exact updateItems_moveCalls ws uuid cwd body2 db []
      (by intro c hcx; cases hcx) call hc

/-- Witness for C10: a `base` update carrying a `size` key is
rejected and the database is unchanged. -/
theorem C10_update_metadata_base_keys_witness :
    (updateMetadataOp db0 ws7 "f1" [("base", [("size", JVal.n 1)])] true []).db
      = db0 :=
  (C10_update_metadata_base_keys db0 ws7 "f1" [("base", [("size", JVal.n 1)])] []
    [("size", JVal.n 1)] (by decide) (by decide) (by decide) (by decide)).2.1

/-- The `json ? 'id'` check constraint of the `metadata` table
(family/metadata migration). -/
def checkIdConstraint (m : MetaR) : Bool :=
  jhas m.json "id"

/-- Invariants carried through the metadata-writing loops, relative to
the database `db0` the request started from: distinct row identifiers,
every committed row still present verbatim, every other row owned by
the workspace, and — when the check constraint held initially — every
row's payload still carrying its `id` key. -/
def DBInv (db0 : DB) (ws : WorkspaceR) (db : DB) : Prop :=
  idInj db ∧
  (∀ m ∈ db0, m.family.workspaceId = none → m ∈ db) ∧
  (∀ m2 ∈ db, m2 ∈ db0 ∨ m2.family.workspaceId = some ws.id) ∧
  ((∀ m ∈ db0, checkIdConstraint m = true) →
    ∀ m2 ∈ db, checkIdConstraint m2 = true)

theorem DBInv_init (db : DB) (ws : WorkspaceR) (hids : idInj db) :
    DBInv db ws db :=
  ⟨hids, fun m hm _ => hm, fun m2 hm2 => Or.inl hm2, fun hid0 => hid0⟩

/-- Appending a fresh workspace-owned row preserves the loop
invariants. -/
theorem DBInv_append {db0 : DB} {ws : WorkspaceR} {db : DB} (e : MetaR)
    (hinv : DBInv db0 ws db)
    (hloc : e.family.workspaceId = some ws.id)
    (hfresh : ∀ m ∈ db, m.id < e.id)
    (hid : (∀ m ∈ db0, checkIdConstraint m = true) →
      checkIdConstraint e = true) :
    DBInv db0 ws (db ++ [e]) := by
  obtain ⟨hinj, hkeep, hnew, hhas⟩ := hinv
  refine ⟨?_, ?_, ?_, ?_⟩
  · intro m1 hm1 m2 hm2 hid12
    rcases List.mem_append.mp hm1 with h1 | h1
    · rcases List.mem_append.mp hm2 with h2 | h2
      · exact hinj m1 h1 m2 h2 hid12
      · rw [List.mem_singleton.mp h2] at hid12
        exact absurd hid12 (Nat.ne_of_lt (hfresh m1 h1))
    · rcases List.mem_append.mp hm2 with h2 | h2
      · rw [List.mem_singleton.mp h1] at hid12
        exact absurd hid12.symm (Nat.ne_of_lt (hfresh m2 h2))
      · rw [List.mem_singleton.mp h1, List.mem_singleton.mp h2]
  · intro m hm hg
    exact List.mem_append.mpr (Or.inl (hkeep m hm hg))
  · intro m2 hm2
    rcases List.mem_append.mp hm2 with h | h
    · exact hnew m2 h
    · rw [List.mem_singleton.mp h]
      exact Or.inr hloc
  · intro hid0 m2 hm2
    rcases List.mem_append.mp hm2 with h | h
    · exact hhas hid0 m2 h
    · rw [List.mem_singleton.mp h]
      exact hid hid0

/-- Rewriting in place a workspace-owned row — same identifier, same
family — preserves the loop invariants. -/
theorem DBInv_replace {db0 : DB} {ws : WorkspaceR} {db : DB} {lat : MetaR}
    (e : MetaR) (hinv : DBInv db0 ws db) (hlat : lat ∈ db)
    (hloc : lat.family.workspaceId = some ws.id)
    (heid : e.id = lat.id) (hefam : e.family = lat.family)
    (hid : (∀ m ∈ db0, checkIdConstraint m = true) →
      checkIdConstraint e = true) :
    DBInv db0 ws (db.map (fun m => if m.id == lat.id then e else m)) := by
  obtain ⟨hinj, hkeep, hnew, hhas⟩ := hinv
  have hfix : ∀ x : MetaR, ((if x.id == lat.id then e else x) : MetaR).id = x.id := by
    intro x
    by_cases hx : x.id == lat.id
    · rw [if_pos hx, heid]; exact (beq_iff_eq.mp hx).symm
    · rw [if_neg hx]
  refine ⟨?_, ?_, ?_, ?_⟩
  · intro m1 hm1 m2 hm2 hid12
    obtain ⟨x1, hx1, he1⟩ := List.mem_map.mp hm1
    obtain ⟨x2, hx2, he2⟩ := List.mem_map.mp hm2
    have : x1.id = x2.id := by
      rw [← he1, ← he2] at hid12
      rw [← hfix x1, ← hfix x2]
      exact hid12
    have hx12 : x1 = x2 := hinj x1 hx1 x2 hx2 this
    rw [← he1, ← he2, hx12]
  · intro m hm hg
    have hmdb := hkeep m hm hg
    have hne : (m.id == lat.id) = false := by
      rw [beq_eq_false_iff_ne]
      intro hcontra
      have hmlat := hinj m hmdb lat hlat hcontra
      rw [hmlat, hloc] at hg
      cases hg
    have hfm : (fun x : MetaR => if x.id == lat.id then e else x) m = m := by
      simp [hne]
    exact hfm ▸ List.mem_map_of_mem _ hmdb
  · intro m2 hm2
    obtain ⟨x, hx, he⟩ := List.mem_map.mp hm2
    by_cases hxl : (x.id == lat.id) = true
    · rw [if_pos hxl] at he
      right
      rw [← he, hefam]
      exact hloc
    · rw [if_neg hxl] at he
      exact he ▸ hnew x hx
  · intro hid0 m2 hm2
    obtain ⟨x, hx, he⟩ := List.mem_map.mp hm2
    by_cases hxl : (x.id == lat.id) = true
    · rw [if_pos hxl] at he
      exact he ▸ hid hid0
    · rw [if_neg hxl] at he
      exact he ▸ hhas hid0 x hx

/-- A cleared payload keeps the check constraint. -/
theorem checkIdConstraint_newJson (uuid : String) :
    checkIdConstraint ⟨0, uuid, [("id", JVal.s uuid)], ⟨0, "", none⟩⟩ = true := by
  simp [checkIdConstraint, jhas, jlookup]

/-- One `delete` clearing step preserves the loop invariants. -/
theorem clearStep_inv (ws : WorkspaceR) (uuid : String) (related : List String)
    (fam : FamilyR) (db0 : DB)
    (hfam : fam.workspaceId = some ws.id)
    (st : DB × List String) (hinv : DBInv db0 ws st.1) :
    DBInv db0 ws (clearFamilyStep ws uuid related st fam).1 := by
  simp only [clearFamilyStep]
  split
  · exact hinv
  · split
    · exact hinv
    · rename_i latest hlat
      have hmem := getLatest_mem hlat
      have hid : (∀ m ∈ db0, checkIdConstraint m = true) →
          checkIdConstraint ⟨0, uuid,
            (if (fam.name == "base") = true then
              jupdate latest.json [("state", JVal.s "DELETED"), ("url", JVal.null)]
            else [("id", JVal.s uuid)]), ⟨0, "", none⟩⟩ = true := by
        intro hid0
        by_cases hb : (fam.name == "base") = true
        · rw [if_pos hb]
          simp only [checkIdConstraint]
          exact jhas_jupdate _ _ (hinv.2.2.2 hid0 latest hmem)
        · rw [if_neg hb]
          simp [checkIdConstraint, jhas, jlookup]
      by_cases hglob : (latest.family.workspaceId == none) = true
      · simp only [hglob, if_true]
        refine DBInv_append _ hinv hfam (fun m hm => freshId_gt hm) ?_
        intro hid0
        simpa [checkIdConstraint] using hid hid0
      · simp only [hglob, Bool.false_eq_true, if_false]
        have hloc : latest.family.workspaceId = some ws.id := by
          rcases getLatest_cases hlat with ⟨_, h⟩ | ⟨_, _, h⟩
          · exact h
          · rw [h] at hglob; simp at hglob
        refine DBInv_replace _ hinv hmem hloc rfl rfl ?_
        intro hid0
        simpa [checkIdConstraint] using hid hid0

/-- The whole `delete` clearing loop preserves the loop invariants. -/
theorem clearFold_inv (ws : WorkspaceR) (uuid : String) (related : List String)
    (db0 : DB) (fams : List FamilyR)
    (hfams : ∀ f ∈ fams, f.workspaceId = some ws.id) :
    ∀ st : DB × List String, DBInv db0 ws st.1 →
      DBInv db0 ws ((fams.foldl (clearFamilyStep ws uuid related) st).1) := by
  induction fams with
  | nil => intro st hinv; exact hinv
  | cons f rest ih =>
    intro st hinv
    simp only [List.foldl_cons]
    exact ih (fun g hg => hfams g (List.mem_cons_of_mem _ hg)) _
      (clearStep_inv ws uuid related f db0
        (hfams f (List.mem_cons_self _ _)) st hinv)

/-- A clearing loop over families none of which is named `base`
leaves any base-named filtered view and the backend-delete log
untouched, while preserving the loop invariants. -/
theorem clearFold_stable (ws : WorkspaceR) (uuid : String) (related : List String)
    (db0 : DB) (fams : List FamilyR)
    (hnames : ∀ f ∈ fams, ¬ f.name = "base")
    (hfams : ∀ f ∈ fams, f.workspaceId = some ws.id)
    (p : MetaR → Bool)
    (hp : ∀ x : MetaR, p x = true → x.family.name = "base")
    (hjson : ∀ (m : MetaR) (j2 : Json), p { m with json := j2 } = p m) :
    ∀ st : DB × List String, DBInv db0 ws st.1 →
      ((fams.foldl (clearFamilyStep ws uuid related) st).1.filter p
          = st.1.filter p ∧
        (fams.foldl (clearFamilyStep ws uuid related) st).2 = st.2) := by
  induction fams with
  | nil => intro st hinv; exact ⟨rfl, rfl⟩
  | cons f rest ih =>
    intro st hinv
    simp only [List.foldl_cons]
    have hstep := clearStep_stable ws uuid related f st
      (hnames f (List.mem_cons_self _ _)) hinv.1 p hp hjson
    have hrec := ih (fun g hg => hnames g (List.mem_cons_of_mem _ hg))
      (fun g hg => hfams g (List.mem_cons_of_mem _ hg)) _
      (clearStep_inv ws uuid related f db0
        (hfams f (List.mem_cons_self _ _)) st hinv)
    exact ⟨hrec.1.trans hstep.1, hrec.2.trans hstep.2⟩

theorem localCand_mem_iff {db : DB} {ws : WorkspaceR} {uuid famName : String}
    {m : MetaR} :
    m ∈ localCand db ws uuid famName ↔
      m ∈ db ∧ m.idFile = uuid ∧ m.family.name = famName ∧
        m.family.workspaceId = some ws.id := by
  simp [localCand, List.mem_filter, Bool.and_eq_true, beq_iff_eq, and_assoc]

theorem baseVis_mem_iff {db : DB} {ws : WorkspaceR} {uuid : String} {m : MetaR} :
    m ∈ baseVis db ws uuid ↔
      m ∈ db ∧ m.idFile = uuid ∧ m.family.name = "base" ∧
        (m.family.workspaceId = none ∨ m.family.workspaceId = some ws.id) := by
  simp [baseVis, List.mem_filter, Bool.and_eq_true, Bool.or_eq_true,
    beq_iff_eq, and_assoc]

/-- The payload of a cleared `base` entry. -/
def clearedJson (j : Json) : Json :=
  jupdate j [("state", JVal.s "DELETED"), ("url", JVal.null)]

/-- The re-homed copy a `delete` writes when the latest base entry is
committed. -/
def clearedBase (st1 : DB) (fam : FamilyR) (lat : MetaR) : MetaR :=
  { lat with id := freshId st1, family := fam, json := clearedJson lat.json }

/-- The in-place rewrite a `delete` performs when the latest base
entry is workspace-local. -/
def clearedInPlace (lat : MetaR) : MetaR :=
  { lat with json := clearedJson lat.json }

/-- Computed form of the `delete` clearing step on the `base` family
when the latest visible entry carries a non-empty URL under the
workspace's storage: the backend delete fires and the entry is
cleared, either on a re-homed copy (committed case) or in place
(local case). -/
theorem clearStep_base_eq (ws : WorkspaceR) (uuid : String)
    (related : List String) (fam : FamilyR) (st : DB × List String)
    (lat : MetaR) (u : String)
    (hname : fam.name = "base")
    (hrel : related.contains "base" = true)
    (hlat : getLatest st.1 ws uuid "base" = some lat)
    (hurl : jlookup lat.json "url" = some (.s u))
    (hune : ¬ u = "")
    (hstart : strStartsWith u ws.dataUrl = true) :
    clearFamilyStep ws uuid related st fam =
      (if (lat.family.workspaceId == none) = true
        then st.1 ++ [clearedBase st.1 fam lat]
        else st.1.map (fun m => if m.id == lat.id then clearedInPlace lat else m),
       st.2 ++ [u]) := by
  have hrelmem : "base" ∈ related := by simpa using hrel
  simp [clearFamilyStep, clearedBase, clearedInPlace, clearedJson,
    hname, hrelmem, hlat, hurl, jtruthy, jstrD, hune, hstart]

/-- Behaviour of the `base` clearing step: the backend delete log
gains exactly the entry's URL, and the new latest visible base entry
is the cleared payload, strictly newest among all base rows the
workspace or its commit can surface. -/
theorem clearStep_base (ws : WorkspaceR) (uuid : String) (related : List String)
    (fam : FamilyR) (st : DB × List String) (lat : MetaR) (u : String)
    (hname : fam.name = "base")
    (hrel : related.contains "base" = true)
    (hfamloc : fam.workspaceId = some ws.id)
    (hinj : idInj st.1)
    (hlat : getLatest st.1 ws uuid "base" = some lat)
    (hurl : jlookup lat.json "url" = some (.s u))
    (hune : ¬ u = "")
    (hstart : strStartsWith u ws.dataUrl = true)
    (hmaxloc : lat.family.workspaceId = some ws.id →
      ∀ x ∈ baseVis st.1 ws uuid, ¬ x = lat → x.id < lat.id) :
    ∃ newLat : MetaR,
      (clearFamilyStep ws uuid related st fam).2 = st.2 ++ [u] ∧
      newLat.json = jupdate lat.json
        [("state", JVal.s "DELETED"), ("url", JVal.null)] ∧
      getLatest (clearFamilyStep ws uuid related st fam).1 ws uuid "base"
        = some newLat ∧
      newLat ∈ baseVis (clearFamilyStep ws uuid related st fam).1 ws uuid ∧
      (∀ x ∈ baseVis (clearFamilyStep ws uuid related st fam).1 ws uuid,
        ¬ x = newLat → x.id < newLat.id) := by
  have hprops := getLatest_props hlat
  rw [clearStep_base_eq ws uuid related fam st lat u hname hrel hlat hurl
    hune hstart]
  by_cases hglob : (lat.family.workspaceId == none) = true
  · -- committed case: copy-on-write, fresh identifier
    simp only [hglob, if_true]
    refine ⟨clearedBase st.1 fam lat, ?_, ?_, ?_, ?_, ?_⟩
    · simp
    · simp [clearedBase, clearedJson]
    · -- the local candidates of the new table are exactly the copy
      have hlocnil : localCand st.1 ws uuid "base" = [] := by
        rcases getLatest_cases hlat with ⟨_, hl⟩ | ⟨hnone, _, _⟩
        · rw [hl] at hglob; simp at hglob
        · exact maxById_eq_none.mp hnone
      have hcand : localCand (st.1 ++ [clearedBase st.1 fam lat]) ws uuid "base"
          = [clearedBase st.1 fam lat] := by
        simp only [localCand] at hlocnil ⊢
        rw [List.filter_append, hlocnil]
        simp [clearedBase, hprops.1, hname, hfamloc]
      simp only [getLatest, hcand, maxById]
    · rw [baseVis_mem_iff]
      refine ⟨List.mem_append.mpr (Or.inr (List.mem_singleton.mpr rfl)),
        hprops.1, hname, Or.inr hfamloc⟩
    · intro x hx hxne
      rw [baseVis_mem_iff] at hx
      rcases List.mem_append.mp hx.1 with hxm | hxm
      · exact freshId_gt hxm
      · exact absurd (List.mem_singleton.mp hxm) hxne
  · -- local case: cleared in place, same identifier
    simp only [hglob, Bool.false_eq_true, if_false]
    have hloc : lat.family.workspaceId = some ws.id := by
      rcases getLatest_cases hlat with ⟨_, h2⟩ | ⟨_, _, h2⟩
      · exact h2
      · rw [h2] at hglob; simp at hglob
    have hlmax : maxById (localCand st.1 ws uuid "base") = some lat := by
      rcases getLatest_cases hlat with ⟨h2, _⟩ | ⟨_, hg, h2⟩
      · exact h2
      · rw [h2] at hglob; simp at hglob
    have hlatmem : lat ∈ st.1 := getLatest_mem hlat
    set nl : MetaR := clearedInPlace lat with hnl
    refine ⟨nl, ?_, ?_, ?_, ?_, ?_⟩
    · simp
    · simp [hnl, clearedInPlace, clearedJson]
    · -- the local candidates are the old ones with `lat` cleared
      have hcand : localCand (st.1.map (fun m => if m.id == lat.id then nl else m))
          ws uuid "base"
          = (localCand st.1 ws uuid "base").map
              (fun m => if m.id == lat.id then nl else m) := by
        simp only [localCand]
        rw [filter_of_map]
        congr 1
        apply List.filter_congr
        intro x hx
        by_cases hxl : (x.id == lat.id) = true
        · have hxlat : x = lat := hinj x hx lat hlatmem (beq_iff_eq.mp hxl)
          subst hxlat
          simp [hxl, hnl, clearedInPlace, clearedJson]
        · have hxlf : (x.id == lat.id) = false := by simpa using hxl
          simp [hxlf]
      rw [getLatest, hcand]
      have hmax2 : maxById ((localCand st.1 ws uuid "base").map
          (fun m => if m.id == lat.id then nl else m)) = some nl := by
        apply maxById_eq_some_of
        · have hfl : (fun m => if m.id == lat.id then nl else m) lat = nl := by
            simp
          exact List.mem_map.mpr ⟨lat, maxById_mem hlmax, hfl⟩
        · intro y hy hyne
          obtain ⟨x, hx, hfx⟩ := List.mem_map.mp hy
          by_cases hxl : (x.id == lat.id) = true
          · simp only [hxl, if_true] at hfx
            exact absurd hfx.symm hyne
          · have hxlf : (x.id == lat.id) = false := by simpa using hxl
            simp only [hxlf, Bool.false_eq_true, if_false] at hfx
            rw [← hfx]
            have hxle := maxById_ge _ lat hlmax x hx
            have hne2 : ¬ x.id = lat.id := by
              intro hc
              rw [hc] at hxl
              simp at hxl
            have hnlid : nl.id = lat.id := rfl
            rw [hnlid]
            omega
      rw [hmax2]
    · rw [baseVis_mem_iff]
      have hfl : (fun m => if m.id == lat.id then nl else m) lat = nl := by simp
      exact ⟨List.mem_map.mpr ⟨lat, hlatmem, hfl⟩, hprops.1, hprops.2,
        Or.inr hloc⟩
    · intro x hx hxne
      rw [baseVis_mem_iff] at hx
      obtain ⟨hxmem, hxid, hxname, hxws⟩ := hx
      obtain ⟨x0, hx0, hfx0⟩ := List.mem_map.mp hxmem
      by_cases hxl : (x0.id == lat.id) = true
      · simp only [hxl, if_true] at hfx0
        exact absurd hfx0.symm hxne
      · have hxlf : (x0.id == lat.id) = false := by simpa using hxl
        simp only [hxlf, Bool.false_eq_true, if_false] at hfx0
        cases hfx0
        have hxnelat : ¬ x = lat := by
          intro hc
          rw [hc] at hxlf
          simp at hxlf
        have hxvis : x ∈ baseVis st.1 ws uuid :=
          baseVis_mem_iff.mpr ⟨hx0, hxid, hxname, hxws⟩
        have hxlt := hmaxloc hloc x hxvis hxnelat
        have hnlid : nl.id = lat.id := rfl
        rw [hnlid]
        exact hxlt
theorem jupdate_two (j : Json) (a b : String) (va vb : JVal) :
    jupdate j [(a, va), (b, vb)] = jset (jset j a va) b vb :=
  rfl

theorem promoteF_id (ws : WorkspaceR) (m : MetaR) : (promoteF ws m).id = m.id := by
  simp only [promoteF]
  split <;> rfl

theorem promoteF_idFile (ws : WorkspaceR) (m : MetaR) :
    (promoteF ws m).idFile = m.idFile := by
  simp only [promoteF]
  split <;> rfl

theorem promoteF_json (ws : WorkspaceR) (m : MetaR) :
    (promoteF ws m).json = m.json := by
  simp only [promoteF]
  split <;> rfl

theorem promoteF_name (ws : WorkspaceR) (m : MetaR) :
    (promoteF ws m).family.name = m.family.name := by
  simp only [promoteF]
  split <;> rfl

/-- After promotion, the latest committed base entry of the file is
the promoted image of the strictly newest row among those the
workspace's view or commit could surface. -/
theorem promote_base_latest (db : DB) (ws : WorkspaceR) (uuid : String)
    (nl : MetaR)
    (hnl : nl ∈ baseVis db ws uuid)
    (hmax : ∀ x ∈ baseVis db ws uuid, ¬ x = nl → x.id < nl.id) :
    getLatestGlobalFam (commitPromote db ws) uuid "base"
      = some (promoteF ws nl) := by
  have hpred : ∀ x : MetaR,
      ((promoteF ws x).idFile == uuid && (promoteF ws x).family.name == "base" &&
        (promoteF ws x).family.workspaceId == none)
      = (x.idFile == uuid && x.family.name == "base" &&
        (x.family.workspaceId == none || x.family.workspaceId == some ws.id)) := by
    intro x
    by_cases hx : (x.family.workspaceId == some ws.id) = true
    · simp [promoteF, hx]
    · have hxf : (x.family.workspaceId == some ws.id) = false := by
        simpa using hx
      simp [promoteF, hxf]
  have hfilter : (commitPromote db ws).filter (fun m =>
        m.idFile == uuid && m.family.name == "base" &&
        m.family.workspaceId == none)
      = (baseVis db ws uuid).map (promoteF ws) := by
    simp only [commitPromote, baseVis]
    rw [filter_of_map]
    congr 1
    apply List.filter_congr
    intro x hx
    exact hpred x
  simp only [getLatestGlobalFam, hfilter]
  apply maxById_eq_some_of
  · exact List.mem_map_of_mem _ hnl
  · intro y hy hyne
    obtain ⟨x, hx, hfx⟩ := List.mem_map.mp hy
    have hxne : ¬ x = nl := by
      intro hc
      rw [hc] at hfx
      exact hyne hfx.symm
    have hlt := hmax x hx hxne
    have hid1 : y.id = x.id := by rw [← hfx]; exact promoteF_id ws x
    have hid2 : (promoteF ws nl).id = nl.id := promoteF_id ws nl
    rw [hid1, hid2]
    exact hlt

/-- Content of a file whose latest committed base entry has a null
URL is a not-found error. -/
theorem detailsContent_deleted (db2 : DB) (uuid : String) (nl2 : MetaR)
    (hfam : getLatestGlobalFam db2 uuid "base" = some nl2)
    (hurl : jlookup nl2.json "url" = some JVal.null) :
    detailsContent db2 uuid true
      = .error (.notFound ("File " ++ uuid ++ " has been deleted")) := by
  simp [detailsContent, hfam, hurl, jtruthy]

/-- Metadata of a file that has a committed base entry is served
successfully. -/
theorem detailsMeta_isOk (db2 : DB) (uuid : String) (nl2 : MetaR)
    (hmem : nl2 ∈ db2) (hid : nl2.idFile = uuid)
    (hname : nl2.family.name = "base")
    (hcomm : nl2.family.workspaceId = none) :
    (detailsMeta db2 uuid true).isOk = true := by
  have hbasemem : "base" ∈ committedNames db2 uuid := by
    simp only [committedNames]
    rw [List.mem_dedup]
    refine List.mem_map.mpr ⟨nl2, List.mem_filter.mpr ⟨hmem, ?_⟩, hname⟩
    simp [hid, hcomm]
  have hfamne : ¬ getLatestGlobalFam db2 uuid "base" = none := by
    intro hc
    simp only [getLatestGlobalFam] at hc
    have hnil := maxById_eq_none.mp hc
    have hmem2 : nl2 ∈ db2.filter (fun m =>
        m.idFile == uuid && m.family.name == "base" &&
        m.family.workspaceId == none) :=
      List.mem_filter.mpr ⟨hmem, by simp [hid, hname, hcomm]⟩
    rw [hnil] at hmem2
    cases hmem2
  have hglobne : ¬ (getLatestGlobal db2 uuid).isEmpty = true := by
    intro hc
    rw [List.isEmpty_iff] at hc
    simp only [getLatestGlobal] at hc
    exact hfamne (List.filterMap_eq_nil_iff.mp hc "base" hbasemem)
  simp [detailsMeta, hglobne, Except.isOk, Except.toBool]

theorem updateOneItem_inv {ws : WorkspaceR} {uuid : String} {cwd : List String}
    {db0 db db2 : DB} {name : String} {content : Json} {mc : Option MoveCall}
    (hfams : ∀ f ∈ ws.families, f.workspaceId = some ws.id)
    (hinv : DBInv db0 ws db)
    (h : updateOneItem ws uuid cwd db name content = .ok (db2, mc)) :
    DBInv db0 ws db2 := by
  simp only [updateOneItem] at h
  split at h
  · cases h
  · split at h
    · cases h
    · split at h
      · cases h
      · split at h
        · cases h
        · rename_i family hfind
          have hfamloc : family.workspaceId = some ws.id :=
            hfams family (List.mem_of_find?_eq_some hfind)
          simp only [Except.ok.injEq, Prod.mk.injEq] at h
          obtain ⟨hdb2, hmc⟩ := h
          rw [← hdb2]
          cases hlat : getLatest db ws uuid name with
          | none =>
            simp only [hlat]
            refine DBInv_append _ hinv hfamloc (fun m hm => freshId_gt hm) ?_
            intro hid0
            simp only [checkIdConstraint]
            apply jhas_jupdate
            split
            · apply jhas_jset
              simp [jhas, jlookup]
            · simp [jhas, jlookup]
          | some latest =>
            have hmem := getLatest_mem hlat
            have hidlat : (∀ m ∈ db0, checkIdConstraint m = true) →
                jhas latest.json "id" = true := by
              intro hid0
              simpa [checkIdConstraint] using hinv.2.2.2 hid0 latest hmem
            simp only [hlat]
            by_cases hglob : (latest.family.workspaceId == none) = true
            · simp only [hglob, if_true]
              refine DBInv_append _ hinv hfamloc (fun m hm => freshId_gt hm) ?_
              intro hid0
              simp only [checkIdConstraint]
              apply jhas_jupdate
              split
              · exact jhas_jset _ _ _ _ (hidlat hid0)
              · exact hidlat hid0
            · simp only [hglob, Bool.false_eq_true, if_false]
              have hloc : latest.family.workspaceId = some ws.id := by
                rcases getLatest_cases hlat with ⟨_, h2⟩ | ⟨_, _, h2⟩
                · exact h2
                · rw [h2] at hglob; simp at hglob
              refine DBInv_replace _ hinv hmem hloc rfl rfl ?_
              intro hid0
              simp only [checkIdConstraint]
              apply jhas_jupdate
              split
              · exact jhas_jset _ _ _ _ (hidlat hid0)
              · exact hidlat hid0

/-- The whole `update_metadata` loop preserves the loop invariants on
success. -/
theorem updateItems_inv (ws : WorkspaceR) (uuid : String) (cwd : List String)
    (db0 : DB)
    (hfams : ∀ f ∈ ws.families, f.workspaceId = some ws.id) :
    ∀ (body : List (String × Json)) (db : DB) (mv : List MoveCall)
      (db2 : DB) (mv2 : List MoveCall),
      DBInv db0 ws db →
      updateItems ws uuid cwd db mv body = (.ok db2, mv2) →
      DBInv db0 ws db2 := by
  intro body
  induction body with
  | nil =>
    intro db mv db2 mv2 hinv h
    simp only [updateItems, Prod.mk.injEq, Except.ok.injEq] at h
    rw [← h.1]
    exact hinv
  | cons item rest ih =>
    intro db mv db2 mv2 hinv h
    obtain ⟨name, content⟩ := item
    simp only [updateItems] at h
    cases hu : updateOneItem ws uuid cwd db name content with
    | error e =>
      rw [hu] at h
      simp at h
    | ok pr =>
      obtain ⟨dbm, mc⟩ := pr
      rw [hu] at h
      exact ih dbm (mv ++ mc.toList) db2 mv2 (updateOneItem_inv hfams hinv hu) h

/-- `delete` either leaves the database untouched (an error before the
commit) or commits the result of the clearing loop. -/
theorem deleteOp_db_cases (db : DB) (ws : WorkspaceR) (uuid : String)
    (canWrite : Bool) :
    (deleteOp db ws uuid canWrite).db = db ∨
    (deleteOp db ws uuid canWrite).db =
      (ws.families.foldl (clearFamilyStep ws uuid
        ("base" :: (getLatestGlobal db uuid).map (fun m => m.family.name)))
        (db, [])).1 := by
  simp only [deleteOp]
  split
  · left; rfl
  · split
    · left; rfl
    · split
      · left; rfl
      · split
        · left; rfl
        · right; rfl

/-- `update_metadata` either leaves the database untouched or commits
a successful run of the item loop. -/
theorem updateMetadataOp_db_cases (db : DB) (ws : WorkspaceR) (uuid : String)
    (body : List (String × Json)) (cwd : List String) (canWrite : Bool) :
    (updateMetadataOp db ws uuid body canWrite cwd).db = db ∨
    ∃ mv2, updateItems ws uuid cwd db [] body =
      (.ok (updateMetadataOp db ws uuid body canWrite cwd).db, mv2) := by
  simp only [updateMetadataOp]
  split
  · left; rfl
  · split
    · left; rfl
    · split
      · left; rfl
      · rcases hres : updateItems ws uuid cwd db [] body with ⟨res, mv⟩
        cases res with
        | error e => left; rfl
        | ok dbr => right; exact ⟨mv, rfl⟩

/-- C2: neither `update_metadata` nor `delete` ever modifies a
committed metadata entry — every row of a committed family survives
both operations verbatim (the change lands on a copy re-homed into the
workspace-local family), and every row they add or rewrite belongs to
a family owned by the workspace. -/
theorem C2_committed_entries_immutable (db : DB) (ws : WorkspaceR) (uuid : String)
    (body : List (String × Json)) (cwd : List String)
    (hids : idInj db)
    (hfams : ∀ f ∈ ws.families, f.workspaceId = some ws.id) :
    (∀ m ∈ db, m.family.workspaceId = none →
      m ∈ (deleteOp db ws uuid true).db ∧
      m ∈ (updateMetadataOp db ws uuid body true cwd).db) ∧
    (∀ m2, (m2 ∈ (deleteOp db ws uuid true).db ∨
        m2 ∈ (updateMetadataOp db ws uuid body true cwd).db) →
      m2 ∈ db ∨ m2.family.workspaceId = some ws.id) := by
  have hdel : DBInv db ws (deleteOp db ws uuid true).db := by
    rcases deleteOp_db_cases db ws uuid true with h | h
    · rw [h]; exact DBInv_init db ws hids
    · rw [h]
      exact clearFold_inv ws uuid _ db ws.families hfams (db, [])
        (DBInv_init db ws hids)
  have hupd : DBInv db ws (updateMetadataOp db ws uuid body true cwd).db := by
    rcases updateMetadataOp_db_cases db ws uuid body cwd true with h | ⟨mv2, h⟩
    · rw [h]; exact DBInv_init db ws hids
    · exact updateItems_inv ws uuid cwd db hfams body db [] _ mv2
        (DBInv_init db ws hids) h
  refine ⟨fun m hm hg => ⟨hdel.2.1 m hm hg, hupd.2.1 m hm hg⟩, ?_⟩
  intro m2 hm2
  rcases hm2 with h | h
  · exact hdel.2.2.1 m2 h
  · exact hupd.2.2.1 m2 h

/-- Witness for C2: the committed base entry of file `f9` survives a
`delete` and an `update_metadata` on workspace 9. -/
theorem C2_committed_entries_immutable_witness :
    meta9b ∈ (deleteOp db9 ws9 "f9" true).db ∧
    meta9b ∈ (updateMetadataOp db9 ws9 "f9" [("y", [("a", JVal.n 1)])] true []).db :=
  (C2_committed_entries_immutable db9 ws9 "f9" [("y", [("a", JVal.n 1)])] []
    (by unfold idInj; decide) (by decide)).1 meta9b (by decide) (by decide)

/-- C8: every metadata entry the operations create or modify keeps the
file identity under the payload key `id`: `create` seeds the payload
with it, `update_metadata` rejects with a bad-request error any
request touching an `id` entry of any family (and seeds fresh entries
with `{id: uuid}`), `delete` preserves it even while clearing a
payload, and all the operations maintain the metadata table's
`json ? 'id'` check constraint. -/
theorem C8_id_key_invariant (db : DB) (ws : WorkspaceR) (uuid : String)
    (body : List (String × Json)) (cwd : List String) (c : ContentInfo)
    (temporary : Bool) (pathArg : Option String) (url newUuid nowStr : String)
    (bf : FamilyR) (content : Json) (famN : String)
    (hready : canChangeMetadata ws = true)
    (hbase : ws.families.find? (fun f => f.name == "base") = some bf)
    (hfile : hasFile db ws uuid = true)
    (hids : idInj db)
    (hfams : ∀ f ∈ ws.families, f.workspaceId = some ws.id)
    (hid0 : ∀ m ∈ db, checkIdConstraint m = true)
    (hmem : (famN, content) ∈ body)
    (hidc : jhas content "id" = true) :
    (∃ e, (createOp db ws true (some c) temporary pathArg (some url) true
        newUuid nowStr).db = db ++ [e] ∧
      jlookup e.json "id" = some (.s newUuid) ∧ checkIdConstraint e = true) ∧
    ((∃ t d, (updateMetadataOp db ws uuid body true cwd).outcome =
        .error (.badRequest t d)) ∧
      (updateMetadataOp db ws uuid body true cwd).db = db) ∧
    (∀ m2 ∈ (deleteOp db ws uuid true).db, checkIdConstraint m2 = true) ∧
    (∀ body2 : List (String × Json),
      ∀ m2 ∈ (updateMetadataOp db ws uuid body2 true cwd).db,
        checkIdConstraint m2 = true) := by
  have hops : ∀ body2 : List (String × Json),
      updateMetadataOp db ws uuid body2 true cwd =
        (match updateItems ws uuid cwd db [] body2 with
          | (.error e, mv) => ⟨.error e, db, mv⟩
          | (.ok db2, mv) => ⟨.ok (), db2, mv⟩) := by
    intro body2
    simp [updateMetadataOp, hfile, hready]
  refine ⟨⟨⟨freshId db, newUuid, jset
      [("id", JVal.s newUuid), ("filename", JVal.s c.filename),
        ("path", JVal.s (pathArg.getD c.path)), ("size", JVal.n c.size),
        ("checksum", JVal.s c.md5), ("date", JVal.s nowStr),
        ("url", JVal.s ""),
        ("state", JVal.s (if temporary then "TEMPORARY" else "READY"))]
      "url" (JVal.s url), bf⟩, ?_, ?_, ?_⟩, ⟨?_, ?_⟩, ?_, ?_⟩
  · simp [createOp, hready, hbase]
  · rw [jlookup_jset_ne _ _ _ _ (by decide)]
    simp [jlookup]
  · simp only [checkIdConstraint, jhas]
    rw [jlookup_jset_ne _ _ _ _ (by decide)]
    simp [jlookup]
  · obtain ⟨e, mv2, heq, t, d, hbr⟩ :=
      updateItems_no_ok_of_idkey ws uuid cwd content famN hidc body db [] hmem
    refine ⟨t, d, ?_⟩
    rw [hops body, heq, hbr]
  · obtain ⟨e, mv2, heq, _, _, _⟩ :=
      updateItems_no_ok_of_idkey ws uuid cwd content famN hidc body db [] hmem
    rw [hops body, heq]
  · intro m2 hm2
    have hdel : DBInv db ws (deleteOp db ws uuid true).db := by
      rcases deleteOp_db_cases db ws uuid true with h | h
      · rw [h]; exact DBInv_init db ws hids
      · rw [h]
        exact clearFold_inv ws uuid _ db ws.families hfams (db, [])
          (DBInv_init db ws hids)
    exact hdel.2.2.2 hid0 m2 hm2
  · intro body2 m2 hm2
    have hupd : DBInv db ws (updateMetadataOp db ws uuid body2 true cwd).db := by
      rcases updateMetadataOp_db_cases db ws uuid body2 cwd true with h | ⟨mv2, h⟩
      · rw [h]; exact DBInv_init db ws hids
      · exact updateItems_inv ws uuid cwd db hfams body2 db [] _ mv2
          (DBInv_init db ws hids) h
    exact hupd.2.2.2 hid0 m2 hm2

/-- Witness for C8: on workspace 9, an `update_metadata` request
touching the `id` entry of family `y` leaves the database unchanged,
and the cleared entries of a `delete` all keep their `id` key. -/
theorem C8_id_key_invariant_witness :
    (updateMetadataOp db9 ws9 "f9" [("y", [("id", JVal.s "zzz")])] true []).db
        = db9 ∧
    ∀ m2 ∈ (deleteOp db9 ws9 "f9" true).db, checkIdConstraint m2 = true := by
  have h := C8_id_key_invariant db9 ws9 "f9" [("y", [("id", JVal.s "zzz")])] []
    ⟨"f", "p", "m", 0⟩ false none "u" "nid" "now" fam9BaseL
    [("id", JVal.s "zzz")] "y" (by decide) (by decide) (by decide)
    (by unfold idInj; decide) (by decide) (by decide) (by decide) (by decide)
  exact ⟨h.2.1.2, h.2.2.1⟩


/-- The latest-entry resolution depends only on the local and
committed candidate views. -/
theorem getLatest_congr {db1 db2 : DB} {ws : WorkspaceR} {uuid famName : String}
    (hL : localCand db1 ws uuid famName = localCand db2 ws uuid famName)
    (hG : globCand db1 ws uuid famName = globCand db2 ws uuid famName) :
    getLatest db1 ws uuid famName = getLatest db2 ws uuid famName := by
  simp only [getLatest, hL, hG]

/-- C4: deleting a file whose latest visible base entry carries a
non-empty URL under the workspace's own storage invokes the backend
delete on that URL exactly once, and the latest visible base entry
afterwards has a null URL and state `DELETED`; once the deletion is
committed (the workspace's entries promoted to global), requesting
the file's content yields a not-found error while requesting its
metadata still succeeds. -/
theorem C4_delete_content_metadata (db : DB) (ws : WorkspaceR) (uuid u : String)
    (lat : MetaR)
    (hids : idInj db)
    (hfams : ∀ f ∈ ws.families, f.workspaceId = some ws.id)
    (hnames : (ws.families.map (fun f => f.name)).Nodup)
    (hbasemem : "base" ∈ ws.families.map (fun f => f.name))
    (hlat : getLatest db ws uuid "base" = some lat)
    (hurl : jlookup lat.json "url" = some (.s u))
    (hune : ¬ u = "")
    (hstart : strStartsWith u ws.dataUrl = true)
    (hfile : hasFile db ws uuid = true)
    (hready : canChangeMetadata ws = true)
    (hsup : isStrictSuperset
      ("base" :: (getLatestGlobal db uuid).map (fun m => m.family.name))
      (ws.families.map (fun f => f.name)) = false)
    (hglob : ∀ m ∈ db, m.idFile = uuid → m.family.name = "base" →
      m.family.workspaceId = none → m.id ≤ ws.lastMetadataId.getD 0)
    (hsnap : ∀ m ∈ db, m.family.workspaceId = some ws.id →
      ws.lastMetadataId.getD 0 < m.id) :
    (deleteOp db ws uuid true).outcome = .ok () ∧
    (deleteOp db ws uuid true).deleteCalls = [u] ∧
    (∃ m2, getLatest (deleteOp db ws uuid true).db ws uuid "base" = some m2 ∧
      jlookup m2.json "url" = some JVal.null ∧
      jlookup m2.json "state" = some (JVal.s "DELETED")) ∧
    detailsContent (commitPromote (deleteOp db ws uuid true).db ws) uuid true
      = .error (.notFound ("File " ++ uuid ++ " has been deleted")) ∧
    (detailsMeta (commitPromote (deleteOp db ws uuid true).db ws) uuid true).isOk
      = true := by
  set related := "base" :: (getLatestGlobal db uuid).map (fun m => m.family.name)
    with hreldef
  have hdeleq : deleteOp db ws uuid true =
      ⟨.ok (),
        (ws.families.foldl (clearFamilyStep ws uuid related) (db, [])).1,
        (ws.families.foldl (clearFamilyStep ws uuid related) (db, [])).2⟩ := by
    simp [deleteOp, hfile, hready, hsup, hreldef]
  obtain ⟨fb, hfbmem, hfbname⟩ := List.mem_map.mp hbasemem
  obtain ⟨l1, l2, hsplit⟩ := List.append_of_mem hfbmem
  have hl1sub : ∀ f ∈ l1, f ∈ ws.families := by
    intro f hf
    rw [hsplit]
    exact List.mem_append.mpr (Or.inl hf)
  have hl2sub : ∀ f ∈ l2, f ∈ ws.families := by
    intro f hf
    rw [hsplit]
    exact List.mem_append.mpr (Or.inr (List.mem_cons_of_mem _ hf))
  have hnd2 := hnames
  rw [hsplit, List.map_append, List.map_cons] at hnd2
  have hndparts := List.nodup_append.mp hnd2
  have hl1names : ∀ f ∈ l1, ¬ f.name = "base" := by
    intro f hf hc
    have hmem2 : "base" ∈ l1.map (fun f => f.name) := List.mem_map.mpr ⟨f, hf, hc⟩
    have hmem3 : "base" ∈ fb.name :: l2.map (fun f => f.name) := by
      rw [hfbname]
      exact List.mem_cons_self _ _
    exact hndparts.2.2 hmem2 hmem3
  have hl2names : ∀ f ∈ l2, ¬ f.name = "base" := by
    intro f hf hc
    have hcons := hndparts.2.1
    rw [List.nodup_cons] at hcons
    have hmem2 : fb.name ∈ l2.map (fun f => f.name) := by
      rw [hfbname]
      exact List.mem_map.mpr ⟨f, hf, hc⟩
    exact hcons.1 hmem2
  have hrelbase : related.contains "base" = true := by
    simp [hreldef, List.contains]
  -- the fold over the families before `fb` leaves the base views alone
  have hinv1 : DBInv db ws (l1.foldl (clearFamilyStep ws uuid related) (db, [])).1 :=
    clearFold_inv ws uuid related db l1 (fun f hf => hfams f (hl1sub f hf))
      (db, []) (DBInv_init db ws hids)
  have hstabL := clearFold_stable ws uuid related db l1 hl1names
    (fun f hf => hfams f (hl1sub f hf))
    (fun m => m.idFile == uuid && m.family.name == "base" &&
      m.family.workspaceId == some ws.id)
    (fun x hx => by
      simp only [Bool.and_eq_true, beq_iff_eq] at hx
      exact hx.1.2)
    (fun m j2 => rfl)
    (db, []) (DBInv_init db ws hids)
  have hstabG := clearFold_stable ws uuid related db l1 hl1names
    (fun f hf => hfams f (hl1sub f hf))
    (fun m => m.idFile == uuid && m.family.name == "base" &&
      m.family.workspaceId == none &&
      (match ws.lastMetadataId with
       | some k => decide (m.id ≤ k)
       | none => false))
    (fun x hx => by
      simp only [Bool.and_eq_true, beq_iff_eq] at hx
      exact hx.1.1.2)
    (fun m j2 => rfl)
    (db, []) (DBInv_init db ws hids)
  have hstabV := clearFold_stable ws uuid related db l1 hl1names
    (fun f hf => hfams f (hl1sub f hf))
    (fun m => m.idFile == uuid && m.family.name == "base" &&
      (m.family.workspaceId == none || m.family.workspaceId == some ws.id))
    (fun x hx => by
      simp only [Bool.and_eq_true, beq_iff_eq] at hx
      exact hx.1.2)
    (fun m j2 => rfl)
    (db, []) (DBInv_init db ws hids)
  have hLeq : localCand (l1.foldl (clearFamilyStep ws uuid related) (db, [])).1
      ws uuid "base" = localCand db ws uuid "base" := by
    simp only [localCand]
    exact hstabL.1
  have hGeq : globCand (l1.foldl (clearFamilyStep ws uuid related) (db, [])).1
      ws uuid "base" = globCand db ws uuid "base" := by
    simp only [globCand]
    exact hstabG.1
  have hVeq : baseVis (l1.foldl (clearFamilyStep ws uuid related) (db, [])).1
      ws uuid = baseVis db ws uuid := by
    simp only [baseVis]
    exact hstabV.1
  have hlat1 : getLatest (l1.foldl (clearFamilyStep ws uuid related) (db, [])).1
      ws uuid "base" = some lat :=
    (getLatest_congr hLeq hGeq).trans hlat
  -- strict-max hypothesis for the base step, in the local case
  have hmaxloc : lat.family.workspaceId = some ws.id →
      ∀ x ∈ baseVis (l1.foldl (clearFamilyStep ws uuid related) (db, [])).1
        ws uuid, ¬ x = lat → x.id < lat.id := by
    intro hloc x hx hxne
    rw [hVeq] at hx
    rw [baseVis_mem_iff] at hx
    obtain ⟨hxmem, hxid, hxname, hxws⟩ := hx
    rcases hxws with hxcomm | hxlocal
    · have hxle := hglob x hxmem hxid hxname hxcomm
      have hlt := hsnap lat (getLatest_mem hlat) hloc
      omega
    · have hxc : x ∈ localCand db ws uuid "base" :=
        localCand_mem_iff.mpr ⟨hxmem, hxid, hxname, hxlocal⟩
      have hlmax : maxById (localCand db ws uuid "base") = some lat := by
        rcases getLatest_cases hlat with ⟨h2, _⟩ | ⟨_, _, h2⟩
        · exact h2
        · rw [h2] at hloc
          cases hloc
      have hxle := maxById_ge _ lat hlmax x hxc
      have hxneid : ¬ x.id = lat.id := fun hc =>
        hxne (hids x hxmem lat (getLatest_mem hlat) hc)
      omega
  obtain ⟨nl, hdels2, hnjson, hnlatest, hnvis, hnmax⟩ :=
    clearStep_base ws uuid related fb
      (l1.foldl (clearFamilyStep ws uuid related) (db, [])) lat u hfbname
      hrelbase (hfams fb hfbmem) hinv1.1 hlat1 hurl hune hstart hmaxloc
  have hinv2 : DBInv db ws (clearFamilyStep ws uuid related
      (l1.foldl (clearFamilyStep ws uuid related) (db, [])) fb).1 :=
    clearStep_inv ws uuid related fb db (hfams fb hfbmem) _ hinv1
  -- the fold over the families after `fb` again leaves the base views alone
  have hstabL2 := clearFold_stable ws uuid related db l2 hl2names
    (fun f hf => hfams f (hl2sub f hf))
    (fun m => m.idFile == uuid && m.family.name == "base" &&
      m.family.workspaceId == some ws.id)
    (fun x hx => by
      simp only [Bool.and_eq_true, beq_iff_eq] at hx
      exact hx.1.2)
    (fun m j2 => rfl)
    (clearFamilyStep ws uuid related
      (l1.foldl (clearFamilyStep ws uuid related) (db, [])) fb) hinv2
  have hstabG2 := clearFold_stable ws uuid related db l2 hl2names
    (fun f hf => hfams f (hl2sub f hf))
    (fun m => m.idFile == uuid && m.family.name == "base" &&
      m.family.workspaceId == none &&
      (match ws.lastMetadataId with
       | some k => decide (m.id ≤ k)
       | none => false))
    (fun x hx => by
      simp only [Bool.and_eq_true, beq_iff_eq] at hx
      exact hx.1.1.2)
    (fun m j2 => rfl)
    (clearFamilyStep ws uuid related
      (l1.foldl (clearFamilyStep ws uuid related) (db, [])) fb) hinv2
  have hstabV2 := clearFold_stable ws uuid related db l2 hl2names
    (fun f hf => hfams f (hl2sub f hf))
    (fun m => m.idFile == uuid && m.family.name == "base" &&
      (m.family.workspaceId == none || m.family.workspaceId == some ws.id))
    (fun x hx => by
      simp only [Bool.and_eq_true, beq_iff_eq] at hx
      exact hx.1.2)
    (fun m j2 => rfl)
    (clearFamilyStep ws uuid related
      (l1.foldl (clearFamilyStep ws uuid related) (db, [])) fb) hinv2
  have hfold : ws.families.foldl (clearFamilyStep ws uuid related) (db, [])
      = l2.foldl (clearFamilyStep ws uuid related)
          (clearFamilyStep ws uuid related
            (l1.foldl (clearFamilyStep ws uuid related) (db, [])) fb) := by
    rw [hsplit, List.foldl_append, List.foldl_cons]
  have hdbF : (deleteOp db ws uuid true).db
      = (l2.foldl (clearFamilyStep ws uuid related)
          (clearFamilyStep ws uuid related
            (l1.foldl (clearFamilyStep ws uuid related) (db, [])) fb)).1 := by
    rw [hdeleq, hfold]
  have hLeq2 : localCand (l2.foldl (clearFamilyStep ws uuid related)
        (clearFamilyStep ws uuid related
          (l1.foldl (clearFamilyStep ws uuid related) (db, [])) fb)).1
      ws uuid "base"
      = localCand (clearFamilyStep ws uuid related
          (l1.foldl (clearFamilyStep ws uuid related) (db, [])) fb).1
        ws uuid "base" := by
    simp only [localCand]
    exact hstabL2.1
  have hGeq2 : globCand (l2.foldl (clearFamilyStep ws uuid related)
        (clearFamilyStep ws uuid related
          (l1.foldl (clearFamilyStep ws uuid related) (db, [])) fb)).1
      ws uuid "base"
      = globCand (clearFamilyStep ws uuid related
          (l1.foldl (clearFamilyStep ws uuid related) (db, [])) fb).1
        ws uuid "base" := by
    simp only [globCand]
    exact hstabG2.1
  have hVeq2 : baseVis (l2.foldl (clearFamilyStep ws uuid related)
        (clearFamilyStep ws uuid related
          (l1.foldl (clearFamilyStep ws uuid related) (db, [])) fb)).1
      ws uuid
      = baseVis (clearFamilyStep ws uuid related
          (l1.foldl (clearFamilyStep ws uuid related) (db, [])) fb).1
        ws uuid := by
    simp only [baseVis]
    exact hstabV2.1
  have hlatF := (getLatest_congr hLeq2 hGeq2).trans hnlatest
  have hjs : nl.json
      = jset (jset lat.json "state" (JVal.s "DELETED")) "url" JVal.null := by
    rw [hnjson]
    rfl
  have hjurl : jlookup nl.json "url" = some JVal.null := by
    rw [hjs]
    exact jlookup_jset_eq _ _ _
  have hjstate : jlookup nl.json "state" = some (JVal.s "DELETED") := by
    rw [hjs, jlookup_jset_ne _ _ _ _ (by decide)]
    exact jlookup_jset_eq _ _ _
  have hnvisF : nl ∈ baseVis (l2.foldl (clearFamilyStep ws uuid related)
      (clearFamilyStep ws uuid related
        (l1.foldl (clearFamilyStep ws uuid related) (db, [])) fb)).1 ws uuid := by
    rw [hVeq2]
    exact hnvis
  have hnmaxF : ∀ x ∈ baseVis (l2.foldl (clearFamilyStep ws uuid related)
      (clearFamilyStep ws uuid related
        (l1.foldl (clearFamilyStep ws uuid related) (db, [])) fb)).1 ws uuid,
      ¬ x = nl → x.id < nl.id := by
    rw [hVeq2]
    exact hnmax
  have hpromo := promote_base_latest _ ws uuid nl hnvisF hnmaxF
  have hpurl : jlookup (promoteF ws nl).json "url" = some JVal.null := by
    rw [promoteF_json]
    exact hjurl
  have hcontent := detailsContent_deleted _ uuid (promoteF ws nl) hpromo hpurl
  obtain ⟨hnmemF, hnid, hnname, hnws⟩ := baseVis_mem_iff.mp hnvisF
  have hpm : promoteF ws nl ∈ commitPromote (l2.foldl
      (clearFamilyStep ws uuid related)
      (clearFamilyStep ws uuid related
        (l1.foldl (clearFamilyStep ws uuid related) (db, [])) fb)).1 ws :=
    List.mem_map_of_mem _ hnmemF
  have hpcomm : (promoteF ws nl).family.workspaceId = none := by
    rcases hnws with h | h
    · simp [promoteF, h]
    · simp [promoteF, h]
  have hmeta := detailsMeta_isOk _ uuid (promoteF ws nl) hpm
    ((promoteF_idFile ws nl).trans hnid) ((promoteF_name ws nl).trans hnname)
    hpcomm
  refine ⟨?_, ?_, ⟨nl, ?_, hjurl, hjstate⟩, ?_, ?_⟩
  · rw [hdeleq]
  · show (deleteOp db ws uuid true).deleteCalls = [u]
    rw [hdeleq]
    show (ws.families.foldl (clearFamilyStep ws uuid related) (db, [])).2 = [u]
    rw [hfold, hstabL2.2, hdels2, hstabL.2]
    rfl
  · rw [hdbF]
    exact hlatF
  · rw [hdbF]
    exact hcontent
  · rw [hdbF]
    exact hmeta

/-- Concrete run of the delete pipeline on `db4`/`ws4`: the backend
delete is called once on the entry's URL and the committed content is
gone afterwards. -/
theorem C4_delete_content_metadata_witness :
    (deleteOp db4 ws4 "f4" true).deleteCalls = ["file:///w4/a/f.txt"] ∧
    detailsContent (commitPromote (deleteOp db4 ws4 "f4" true).db ws4) "f4" true
      = .error (.notFound ("File " ++ "f4" ++ " has been deleted")) := by
  have h := C4_delete_content_metadata db4 ws4 "f4" "file:///w4/a/f.txt" metaL4
    (by unfold idInj; decide) (by decide) (by decide) (by decide) (by decide)
    (by decide) (by decide) (by decide) (by decide) (by decide) (by decide)
    (by decide) (by decide)
  exact ⟨h.2.1, h.2.2.2.1⟩

/-- `ws7` in a state that forbids metadata changes. -/
def wsScan : WorkspaceR := ⟨7, .SCANNING, "file:///w7", some 1, [famBaseW7]⟩

/-- C3: when the workspace state forbids metadata changes, each
metadata-mutating operation — `create`, `delete`, `update_metadata`,
`set_metadata` — fails with a precondition error whose detail names
the workspace's current state, leaves the metadata store untouched,
and performs no backend call; none of them succeeds as a no-op. -/
theorem C3_state_guard_on_mutators (db : DB) (ws : WorkspaceR) (uuid : String)
    (c : ContentInfo) (temporary : Bool) (pathArg : Option String)
    (uploadRes : Option String) (permOk : Bool) (newUuid nowStr : String)
    (body : List (String × Json)) (cwd : List String)
    (hstate : canChangeMetadata ws = false)
    (hfile : hasFile db ws uuid = true) :
    createOp db ws true (some c) temporary pathArg uploadRes permOk newUuid nowStr =
      ⟨.error (.preconditionFailed "Cannot add file to workspace"
        ("Cannot add files to a workspace on " ++ ws.state.name ++ " state")),
        db, [], []⟩ ∧
    deleteOp db ws uuid true =
      ⟨.error (.preconditionFailed "Cannot update metadata of file"
        ("Cannot update metadata of files to a workspace on " ++
          ws.state.name ++ " state")), db, []⟩ ∧
    updateMetadataOp db ws uuid body true cwd =
      ⟨.error (.preconditionFailed "Cannot update metadata of file"
        ("Cannot update metadata of files to a workspace on " ++
          ws.state.name ++ " state")), db, []⟩ ∧
    setMetadataOp db ws uuid true =
      (.error (.preconditionFailed "Cannot change metadata of file"
        ("Cannot change metadata of files to a workspace on " ++
          ws.state.name ++ " state")), db) := by
  refine ⟨?_, ?_, ?_, ?_⟩ <;>
    simp [createOp, deleteOp, updateMetadataOp, setMetadataOp, hstate, hfile]

/-- Witness for C3: a workspace in `SCANNING` state rejects `delete`
with the precondition error naming the state and an unchanged
database. -/
theorem C3_state_guard_on_mutators_witness :
    deleteOp db0 wsScan "f1" true =
      ⟨.error (.preconditionFailed "Cannot update metadata of file"
        ("Cannot update metadata of files to a workspace on " ++
          wsScan.state.name ++ " state")), db0, []⟩ :=
  (C3_state_guard_on_mutators db0 wsScan "f1" ⟨"f", "p", "m", 0⟩ false none none
    true "u" "t" [] [] (by decide) (by decide)).2.1

/-- C7: in `create`, a failed content upload raises a server-side
error with no metadata persisted and nothing stored; a failed
permission-setting after a successful upload raises a server-side
error with no metadata persisted, while the uploaded object stays in
the upload log with no compensating delete call. -/
theorem C7_create_backend_failures (db : DB) (ws : WorkspaceR) (c : ContentInfo)
    (temporary : Bool) (pathArg : Option String) (newUuid nowStr url : String)
    (bf : FamilyR)
    (hready : canChangeMetadata ws = true)
    (hbase : ws.families.find? (fun f => f.name == "base") = some bf) :
    createOp db ws true (some c) temporary pathArg none true newUuid nowStr =
      ⟨.error (.serverError "Failed to upload file" "Could not upload file"),
        db, [], []⟩ ∧
    createOp db ws true (some c) temporary pathArg (some url) false newUuid nowStr =
      ⟨.error (.serverError "Failed to upload file"
        "Could not update file permissions"), db, [url], []⟩ := by
  constructor <;> simp [createOp, hready, hbase]

theorem isStrictSuperset_iff (a b : List String) :
    isStrictSuperset a b = true ↔
      (∀ x ∈ b, x ∈ a) ∧ ¬(∀ x ∈ a, x ∈ b) := by
  simp [isStrictSuperset, List.all_eq_true, List.contains, List.elem_iff]

/-- C9 counterexample: workspace 9 has not shadowed the committed
family `x`, which holds metadata for file `f9`, yet `delete` succeeds
— the committed-family names plus `base` (`{base, x}`) and the
workspace's declared names (`{base, y}`) are incomparable, so the
strict-superset (`>`) check does not fire. -/
theorem C9_delete_family_check_counterexample :
    (deleteOp db9 ws9 "f9" true).outcome = .ok () ∧
    (∃ m ∈ db9, m.idFile = "f9" ∧ m.family.workspaceId = none ∧
      m.family.name = "x") ∧
    "x" ∉ ws9.families.map (fun f => f.name) := by
  refine ⟨by decide, ⟨meta9x, by decide⟩, by decide⟩

/-- C9 (amended): `delete` fails with a precondition error, changing
nothing, exactly when the committed-family names referencing the file
together with `base` form a **strict superset** of the workspace's
declared family names; when the two sets are merely incomparable the
check passes and the file can be deleted even though some referencing
family is not shadowed (see the counterexample). -/
theorem C9_delete_family_superset_check (db : DB) (ws : WorkspaceR) (uuid : String)
    (hfile : hasFile db ws uuid = true)
    (hready : canChangeMetadata ws = true)
    (hsub : ∀ n ∈ ws.families.map (fun f => f.name),
      n ∈ "base" :: (getLatestGlobal db uuid).map (fun m => m.family.name))
    (hne : ¬ (∀ n ∈ "base" :: (getLatestGlobal db uuid).map (fun m => m.family.name),
      n ∈ ws.families.map (fun f => f.name))) :
    deleteOp db ws uuid true =
      ⟨.error (.preconditionFailed "Cannot delete file"
        ("Cannot delete file in this workspace because the workspace does " ++
          "not use all the metadata families associated with this file")), db, []⟩ := by
  have hsup : isStrictSuperset
      ("base" :: (getLatestGlobal db uuid).map (fun m => m.family.name))
      (ws.families.map (fun f => f.name)) = true :=
    (isStrictSuperset_iff _ _).mpr ⟨hsub, hne⟩
  simp [deleteOp, hfile, hready, hsup]

/-- Witness for the amended C9 on concrete data. -/
theorem C9_delete_family_superset_check_witness :
    deleteOp db8 ws8 "f8" true =
      ⟨.error (.preconditionFailed "Cannot delete file"
        ("Cannot delete file in this workspace because the workspace does " ++
          "not use all the metadata families associated with this file")), db8, []⟩ :=
  C9_delete_family_superset_check db8 ws8 "f8" (by decide) (by decide)
    (by decide) (by decide)

/-- Witness for C7 on concrete data. -/
theorem C7_create_backend_failures_witness :
    createOp db0 ws7 true (some ⟨"f.txt", "a", "m5", 3⟩) false none none true
        "u9" "now" =
      ⟨.error (.serverError "Failed to upload file" "Could not upload file"),
        db0, [], []⟩ ∧
    createOp db0 ws7 true (some ⟨"f.txt", "a", "m5", 3⟩) false none
        (some "file:///w7/a/f.txt") false "u9" "now" =
      ⟨.error (.serverError "Failed to upload file"
        "Could not update file permissions"), db0, ["file:///w7/a/f.txt"], []⟩ :=
  C7_create_backend_failures db0 ws7 ⟨"f.txt", "a", "m5", 3⟩ false none "u9" "now"
    "file:///w7/a/f.txt" famBaseW7 (by decide) (by decide)

end Quetzal
